import Mathlib

/-!
Verification of the webpack-assets-manifest plugin core
(src/WebpackAssetsManifest.js) against its specification.

JavaScript/JSON values are embedded as the inductive `JValue`; JS objects
are association lists with unique keys (`JObj`), mirroring own enumerable
string-keyed properties in insertion order.  Prototype-chain lookups,
numeric array indexing through lodash paths, float numbers and object
reference identity are outside the model and are noted where relevant.
-/

/-- JSON/JS runtime values. `undefined` is the JS `undefined` produced by missing
property reads; numbers are modelled as integers (floats out of scope). -/
inductive JValue where
  | str  : String → JValue
  | num  : Int → JValue
  | bool : Bool → JValue
  | null : JValue
  | undefined : JValue
  | arr  : List JValue → JValue
  | obj  : List (String × JValue) → JValue
deriving Inhabited

/-- A JS object: own enumerable entries in insertion order. -/
abbrev JObj := List (String × JValue)

/-- Property read on an object, as `Option`. -/
def jGet : JObj → String → Option JValue
  | [], _ => none
  | (k', v) :: rest, k => if k' = k then some v else jGet rest k

/-- Own-property test (`Object.prototype.hasOwnProperty`). -/
def jHas (es : JObj) (k : String) : Bool :=
  (jGet es k).isSome

/-- Property read on an object; a missing property reads as `undefined`. -/
def jGetU (es : JObj) (k : String) : JValue :=
  (jGet es k).getD .undefined

/-- Property assignment `o[k] = v`: an existing key keeps its position,
a fresh key is appended (JS object insertion-order semantics). -/
def objSet : JObj → String → JValue → JObj
  | [], k, v => [(k, v)]
  | (k', v') :: rest, k, v =>
      if k' = k then (k', v) :: rest else (k', v') :: objSet rest k v

/-- Sequential property assignments (the per-source copy loop of
`Object.assign`, and the write side of merge loops). -/
def setAll (d : JObj) (ps : JObj) : JObj :=
  ps.foldl (fun d kv => objSet d kv.1 kv.2) d

/-- JS truthiness of the modelled values. -/
def truthy : JValue → Bool
  | .str s => s ≠ ""
  | .num n => n ≠ 0
  | .bool b => b
  | .null => false
  | .undefined => false
  | .arr _ => true
  | .obj _ => true

/-- JS `a || b` on values. -/
def jsOr (a b : JValue) : JValue :=
  if truthy a then a else b

/-- Modelled from the spec: `isObject` from the missing `helpers.js` module —
true exactly for plain structured objects (not arrays, not scalars). -/
def isObject : JValue → Bool
  | .obj _ => true
  | _ => false

/-- Values the `deepmerge` dependency treats as mergeable
(its default `isMergeableObject`: plain objects and arrays). -/
def isMergeable : JValue → Bool
  | .obj _ => true
  | .arr _ => true
  | _ => false

/-- Own entries of a value (`Object.keys`-visible entries; scalars have none). -/
def entriesOf : JValue → JObj
  | .obj es => es
  | _ => []

/-- The `key in target` test used by deepmerge before recursing
(prototype-chain hits are outside the model). -/
def valueHasKey : JValue → String → Bool
  | .obj es, k => jHas es k
  | _, _ => false

/-- `target[key]` read used by deepmerge when recursing. -/
def valueGet : JValue → String → JValue
  | .obj es, k => jGetU es k
  | _, _ => .undefined

/-- No duplicate keys in an association list (always true of a JS object). -/
def nodupKeys : JObj → Bool
  | [] => true
  | (k, _) :: rest => !(rest.any (fun p => p.1 = k)) && nodupKeys rest

mutual
/-- Well-formedness of a modelled JS value: every object reachable inside it
has pairwise distinct keys. Every value produced by `JSON.parse` or built by
JS property assignment satisfies this. -/
def WF : JValue → Bool
  | .obj es => nodupKeys es && WFentries es
  | .arr vs => WFitems vs
  | _ => true

/-- All entry values of an object are well-formed. -/
def WFentries : JObj → Bool
  | [] => true
  | (_, v) :: rest => WF v && WFentries rest

/-- All items of an array are well-formed. -/
def WFitems : List JValue → Bool
  | [] => true
  | v :: rest => WF v && WFitems rest
end

/-- Well-formed manifest store: a JS object given as its entry list. -/
def WFO (es : JObj) : Bool :=
  nodupKeys es && WFentries es

/-- Replace every backslash with a forward slash
(`fixKey`, src/WebpackAssetsManifest.js line 225; non-string keys,
which pass through unchanged there, are outside this String-level model). -/
def fixKey (k : String) : String :=
  String.mk (k.data.map (fun c => if c = '\\' then '/' else c))

/-- A key containing no backslash (such keys are fixed points of `fixKey`). -/
def noBackslash (k : String) : Bool :=
  k.data.all (fun c => c ≠ '\\')

/-- Does the key contain a dot? Lodash treats such non-own keys as deep
property paths (bracket syntax is not modelled; manifest keys are filenames). -/
def stringHasDot (k : String) : Bool :=
  k.data.any (fun c => c = '.')

/-- Split a character list on a separator character. -/
def splitCharsOn (sep : Char) : List Char → List (List Char)
  | [] => [[]]
  | c :: rest =>
      let r := splitCharsOn sep rest
      if c = sep then [] :: r
      else
        match r with
        | [] => [[c]]
        | g :: gs => (c :: g) :: gs

/-- Split a key on dots into lodash path components
(`stringToPath` for the dotted keys this model covers). -/
def splitOnDot (k : String) : List String :=
  (splitCharsOn '.' k.data).map String.mk

/-- Walk a lodash property path through nested objects
(array index components are outside the model). -/
def pathHasV : JValue → List String → Bool
  | _, [] => true
  | .obj es, k :: rest =>
      match jGet es k with
      | some v => pathHasV v rest
      | none => false
  | _, _ :: _ => false

/-- Modelled `lodash.has`: an own key hits directly; otherwise a dotted key
is split on dots and walked as a deep path. -/
def lodashHas (es : JObj) (k : String) : Bool :=
  if jHas es k then true
  else if stringHasDot k then pathHasV (.obj es) (splitOnDot k)
  else false

/-- Modelled `has` method (line 316): lodash.has on the raw key or on the
slash-normalized key. -/
def hasKeyDual (es : JObj) (k : String) : Bool :=
  lodashHas es k || lodashHas es (fixKey k)

/-- Modelled `get` method (line 328):
`this.assets[key] || this.assets[fixKey(key)] || defaultValue`,
with JS `||` falling through on falsy values. -/
def getWithDefault (es : JObj) (k : String) (d : JValue) : JValue :=
  jsOr (jGetU es k) (jsOr (jGetU es (fixKey k)) d)

/-- `this.get(key)` as called from `maybeMerge` (default value `undefined`). -/
def getVal (es : JObj) (k : String) : JValue :=
  getWithDefault es k .undefined

mutual
/-- Modelled from the `deepmerge@4` dependency as invoked by `maybeMerge`
(line 414) with `arrayMerge = (destArray, srcArray) => srcArray`:
an array source replaces wholesale; an array/non-array type mismatch yields
a copy of the source; otherwise the objects are merged entrywise
(`cloneUnlessOtherwiseSpecified` is identity in this value model;
prototype-chain and primitive-string-key corner cases are not modelled). -/
def deepmergeV : JValue → JValue → JValue
  | _, .arr ss => .arr ss
  | .arr _, s => s
  | t, .obj so => .obj (mergeEntries t (entriesOf t) so)
  | t, _ => .obj (entriesOf t)

/-- The `mergeObject` loop of deepmerge: start from a copy of the target
entries, then for each source entry recurse when the key is on the target
and the source value is mergeable, else take the source value. -/
def mergeEntries (t : JValue) : JObj → JObj → JObj
  | dst, [] => dst
  | dst, (k, sv) :: rest =>
      mergeEntries t
        (objSet dst k
          (if valueHasKey t k && isMergeable sv then deepmergeV (valueGet t k) sv else sv))
        rest
end

/-- The per-source-entry value computed by `mergeEntries`
(it does not depend on the accumulated destination). -/
def resolveMerge (t : JValue) (k : String) (sv : JValue) : JValue :=
  if valueHasKey t k && isMergeable sv then deepmergeV (valueGet t k) sv else sv

/-- One iteration of the `maybeMerge` loop (lines 409-421) over a parsed
on-disk entry `(k, old)`, with `this.set` in boolean-merge mode delegating to
`setRaw` (raw key, raw value): if `this.has(k)`, deep-merge when both the
on-disk and the current value are plain objects, else leave the store alone;
otherwise insert the on-disk value verbatim. -/
def mergeStep (assets : JObj) (k : String) (old : JValue) : JObj :=
  if hasKeyDual assets k then
    let cur := getVal assets k
    if isObject old && isObject cur then objSet assets k (deepmergeV old cur) else assets
  else objSet assets k old

/-- The full `maybeMerge` loop over the parsed on-disk entries. -/
def mergeLoop : JObj → JObj → JObj
  | assets, [] => assets
  | assets, (k, old) :: rest => mergeLoop (mergeStep assets k old) rest

/-- Plugin state relevant to `set` and `maybeMerge`: the manifest store, the
merging-mode flag, and the warn-once bookkeeping (messages already seen, and
the console lines emitted so far). -/
structure MState where
  assets : JObj
  isMerging : Bool
  warnSeen : List String
  warnLog : List String

/-- Modelled from the spec: `warn.once` from the missing `helpers.js` module —
logs a message and records it, unless the exact message was already seen. -/
def warnOnce (msg : String) (st : MState) : MState :=
  if msg ∈ st.warnSeen then st
  else { st with warnSeen := msg :: st.warnSeen, warnLog := st.warnLog ++ [msg] }

/-- Modelled `maybeMerge` (lines 397-427): when the merge option is enabled,
the merging flag is raised, the on-disk manifest is read and parsed
(`readResult = none` models a missing/unreadable/invalid-JSON file, whose
exception the catch block swallows), the merge loop runs, and the finally
block always clears the flag. The `merge: the-customize-string` variant,
whose loop defers to user hooks, is outside this model. -/
def maybeMergeModel (mergeOn : Bool) (readResult : Option JObj) (st : MState) : MState :=
  if mergeOn then
    match readResult with
    | none => { st with isMerging := false }
    | some data => { st with assets := mergeLoop st.assets data, isMerging := false }
  else st

/-- The tail of a string after dropping a given number of characters. -/
def strDropN (s : String) (n : Nat) : String :=
  String.mk (s.data.drop n)

/-- The base string up to and including its last slash
(empty when it has no slash): how URL resolution replaces the last
path segment of the base with the relative reference. -/
def upToLastSlash (s : String) : String :=
  String.mk ((s.data.reverse.dropWhile (fun c => c ≠ '/')).reverse)

/-- Break a character list at the first scheme separator, when present. -/
def breakOnSchemeSep : List Char → Option (List Char × List Char)
  | [] => none
  | ':' :: '/' :: '/' :: rest => some ([], rest)
  | c :: rest => (breakOnSchemeSep rest).map (fun p => (c :: p.1, p.2))

/-- Crude scheme detection: the string contains a scheme separator. -/
def hasScheme (s : String) : Bool :=
  (breakOnSchemeSep s.data).isSome

/-- The scheme part with trailing colon, when present. -/
def schemeOf (s : String) : String :=
  match breakOnSchemeSep s.data with
  | some (scheme, _) => String.mk scheme ++ ":"
  | none => ""

/-- The origin part of a URL when a scheme is present
(scheme separator plus host up to the first slash), else empty. -/
def originOf (s : String) : String :=
  match breakOnSchemeSep s.data with
  | some (scheme, rest) => String.mk scheme ++ "://" ++ String.mk (rest.takeWhile (fun c => c ≠ '/'))
  | none => ""

/-- Does the string start with a slash? -/
def startsWithSlash (s : String) : Bool :=
  match s.data with
  | c :: _ => c = '/'
  | [] => false

/-- Does the string start with two slashes (protocol-relative reference)? -/
def startsWithDoubleSlash (s : String) : Bool :=
  match s.data with
  | c :: c2 :: _ => c = '/' && c2 = '/'
  | _ => false

/-- The path part of the base URL (everything after the origin). -/
def pathOf (s : String) : String :=
  strDropN s (originOf s).data.length

/-- Modelled from the Node legacy `url.resolve` as used by `getPublicPath`
(a string or boolean publicPath prefix joined with a relative asset filename):
an absolute or protocol-relative reference overrides the base path; otherwise
the last path segment of the base is replaced by the reference, so a base
ending in a slash is joined without introducing a double slash and any query
or fragment inside the reference passes through verbatim. Dot-segment
normalization and base query/fragment stripping are outside the subset. -/
def urlResolve (base rel : String) : String :=
  if startsWithDoubleSlash rel then schemeOf base ++ rel
  else if hasScheme rel then rel
  else if startsWithSlash rel then originOf base ++ rel
  else if rel = "" then base
  else
    let p := upToLastSlash (pathOf base)
    originOf base ++ (if p = "" && hasScheme base then "/" else p) ++ rel

/-- The four shapes of the `publicPath` option (line 775): unset (or any
other non-function non-string non-true value), a custom resolver function
(the manifest argument it also receives is opaque to this model), a string
prefix, or boolean true. -/
inductive PPOpt where
  | null
  | fn (f : String → JValue)
  | str (p : String)
  | isTrue

/-- Modelled `getPublicPath` (lines 775-797): a non-string filename is
returned unchanged; a function option is called and its result returned
verbatim; a string option is URL-joined; `true` resolves against the
compiler output publicPath, read with default empty string. -/
def getPublicPath (opt : PPOpt) (compilerPublicPath : Option String) : JValue → JValue
  | .str filename =>
      match opt with
      | .fn f => f filename
      | .str p => .str (urlResolve p filename)
      | .isTrue => .str (urlResolve (compilerPublicPath.getD "") filename)
      | .null => .str filename
  | v => v

/-- JS string coercion of a value used as a property key
(arrays join their items with commas; null and undefined items are empty). -/
def jsToPropString : JValue → String
  | .str s => s
  | .num n => toString n
  | .bool true => "true"
  | .bool false => "false"
  | .null => "null"
  | .undefined => "undefined"
  | .obj _ => "[object Object]"
  | .arr vs => joinComma vs
where
  joinComma : List JValue → String
  | [] => ""
  | [.null] => ""
  | [.undefined] => ""
  | [v] => jsToPropString v
  | .null :: rest => "," ++ joinComma rest
  | .undefined :: rest => "," ++ joinComma rest
  | v :: rest => jsToPropString v ++ "," ++ joinComma rest

/-- Modelled from the spec: `varType` from the missing `helpers.js` module —
the runtime type tag used in the warn-once message of `set`. -/
def varType : JValue → String
  | .str _ => "String"
  | .num _ => "Number"
  | .bool _ => "Boolean"
  | .null => "Null"
  | .undefined => "Undefined"
  | .arr _ => "Array"
  | .obj _ => "Object"

/-- JS strict equality restricted to primitives; two structured values are
reference-compared in JS, which a value model cannot see, so they compare
unequal here (the defaulted-destructuring case, where the references do
coincide, is tracked separately in `setModel`). -/
def jsStrictEqPrim : JValue → JValue → Bool
  | .str a, .str b => a = b
  | .num a, .num b => a = b
  | .bool a, .bool b => a = b
  | .null, .null => true
  | .undefined, .undefined => true
  | _, _ => false

/-- Modelled `lodash.get` along a dot path with a default, as in the
integrity lookup (line 298): the default is returned when the walk falls off
an object or resolves to `undefined`. -/
def pathGetD : JValue → List String → JValue → JValue
  | .undefined, [], d => d
  | v, [], _ => v
  | .obj es, k :: rest, d =>
      match jGet es k with
      | some v => pathGetD v rest d
      | none => d
  | _, _ :: _, d => d

/-- The integrity digest stored on the current asset metadata under the
configured property name (`get(this, "currentAsset.info." + name, "")`):
empty string when there is no current asset or no digest recorded. -/
def integrityDigest (currentAssetInfo : Option JObj) (propName : String) : JValue :=
  match currentAssetInfo with
  | none => .str ""
  | some info => pathGetD (.obj info) (splitOnDot propName) (.str "")

/-- The three values of the `merge` option: false, true, or the customize
string. -/
inductive MergeOpt where
  | off
  | on
  | customize
deriving DecidableEq

/-- The option and compilation context `set` reads. -/
structure SetCtx where
  merge : MergeOpt
  integrity : Bool
  integrityPropertyName : String
  publicPath : PPOpt
  compilerPublicPath : Option String
  currentAssetInfo : Option JObj

/-- The customized key after destructuring with default
(`let { key = fixedKey } = entry`): the default applies when the property is
missing or explicitly undefined; other values are coerced to property keys. -/
def entryKeyStr (eo : JObj) (fixedKey : String) : String :=
  match jGet eo "key" with
  | none => fixedKey
  | some .undefined => fixedKey
  | some v => jsToPropString v

/-- Whether the customized value fell back to the destructuring default
(in which case it is reference-identical to the resolved public path). -/
def entryValueDefaulted (eo : JObj) : Bool :=
  match jGet eo "value" with
  | none => true
  | some .undefined => true
  | some _ => false

/-- The customized value after destructuring with default
(`let { value = publicPath } = entry`). -/
def entryValueOf (eo : JObj) (publicPath : JValue) : JValue :=
  match jGet eo "value" with
  | none => publicPath
  | some .undefined => publicPath
  | some v => v

/-- Modelled `set` (lines 261-308). In merging mode (merge option not the
customize string) it delegates to `setRaw` untouched. Otherwise the key is
normalized, the value resolved through `getPublicPath`, and `entry` — the
result of the user-extensible customize waterfall hook on the candidate —
decides: `false` skips, an object is stored under the customized key with the
integrity wrap applied when the value still strictly equals the resolved
public path and integrity mode is on, and anything else logs a one-time
warning and stores the unmodified candidate. -/
def setModel (ctx : SetCtx) (st : MState) (key : String) (value : JValue)
    (entry : JValue) : MState :=
  if st.isMerging ∧ ctx.merge ≠ MergeOpt.customize then
    { st with assets := objSet st.assets key value }
  else
    let fixedKey := fixKey key
    let publicPath := getPublicPath ctx.publicPath ctx.compilerPublicPath value
    match entry with
    | .bool false => st
    | .obj eo =>
        let k := entryKeyStr eo fixedKey
        let v := entryValueOf eo publicPath
        let v :=
          if (entryValueDefaulted eo || jsStrictEqPrim v publicPath) && ctx.integrity then
            .obj [("src", v),
                  ("integrity", integrityDigest ctx.currentAssetInfo ctx.integrityPropertyName)]
          else v
        { st with assets := objSet st.assets k v }
    | e =>
        let st1 := warnOnce ("Unexpected customize() return type: " ++ varType e) st
        { st1 with assets := objSet st1.assets fixedKey publicPath }

/-- Outcome of a persistence operation: whether it completed, the advisory
locks held afterwards, and whether the artifact was produced. -/
structure WriteOutcome where
  ok : Bool
  locks : List String
  wrote : Bool

/-- Modelled `writeTo` (lines 591-600). Lock acquisition is modelled as
succeeding (the lockfile helpers are bookkept as a held-lock list);
`mkdirOk` and `writeOk` say whether the recursive directory creation and the
file write succeed. A failed await rejects the promise immediately, so the
remaining statements — including the final unlock — do not run. -/
def writeToModel (dest : String) (mkdirOk writeOk : Bool) (held : List String) : WriteOutcome :=
  let held1 := dest :: held
  if mkdirOk = false then { ok := false, locks := held1, wrote := false }
  else if writeOk = false then { ok := false, locks := held1, wrote := false }
  else { ok := true, locks := held1.erase dest, wrote := true }

/-- Modelled `emitAssetsManifest` (lines 463-483): the lock is taken only
when the merge option is enabled; `maybeMerge` swallows its own errors and
cannot throw; `emitOk` says whether `compilation.emitAsset` succeeds — if it
throws, the trailing unlock does not run. -/
def emitAssetsManifestModel (output : String) (mergeOn emitOk : Bool)
    (held : List String) : WriteOutcome :=
  let held1 := if mergeOn then output :: held else held
  if emitOk = false then { ok := false, locks := held1, wrote := false }
  else { ok := true, locks := if mergeOn then held1.erase output else held1, wrote := true }

/-- The state touched by the run-start reset: the manifest store and the
asset-name index. -/
structure RunState where
  assets : JObj
  assetNames : List (String × String)

/-- Modelled `handleBeforeRun` (lines 605-608): clear the asset-name index. -/
def handleBeforeRun (st : RunState) : RunState :=
  { st with assetNames := [] }

/-- The two run-start lifecycle events. -/
inductive RunStartEvent where
  | beforeRun
  | watchRun

/-- `apply` taps `handleBeforeRun` for both run-start events
(lines 134-136). -/
def runStartHandler : RunStartEvent → RunState → RunState
  | _, st => handleBeforeRun st

/-- Modelled line 77,
`this.assets = Object.assign(this.options.assets, this.assets, this.options.assets)`:
`Object.assign` copies each source in turn onto the target, and the second
source is the very object being assigned into, so by the time it is read its
properties are the already-merged ones and the second copy is a no-op. -/
def afterOptionsAssets (optionsAssets assets : JObj) : JObj :=
  let step1 := setAll optionsAssets assets
  setAll step1 step1

/-- Hypotheses on parsed on-disk data under which the merge loop is
idempotent: a JSON object (distinct keys, well-formed values) whose keys
contain no backslash, so no two lookups alias through `fixKey`. -/
def dataOK (data : JObj) : Bool :=
  nodupKeys data && data.all (fun kv => WF kv.2 && noBackslash kv.1)

/-- Warn-once bookkeeping invariant: the emitted log has no duplicate lines
and mirrors the seen-set (trivially true of the initial empty state). -/
def WarnWF (st : MState) : Prop :=
  st.warnLog.Nodup ∧ ∀ m, m ∈ st.warnLog ↔ m ∈ st.warnSeen

theorem jGet_objSet_self (d : JObj) (k : String) (v : JValue) :
    jGet (objSet d k v) k = some v := by
  induction d with
  | nil => simp [objSet, jGet]
  | cons p rest ih =>
      obtain ⟨k', v'⟩ := p
      by_cases h : k' = k
      · subst h; simp [objSet, jGet]
      · simp [objSet, jGet, h, ih]

theorem jGet_objSet_ne (d : JObj) (k k' : String) (v : JValue) (h : k' ≠ k) :
    jGet (objSet d k v) k' = jGet d k' := by
  induction d with
  | nil => simp [objSet, jGet, Ne.symm h]
  | cons p rest ih =>
      obtain ⟨k0, v0⟩ := p
      by_cases h0 : k0 = k
      · subst h0
        simp [objSet, jGet, Ne.symm h]
      · simp [objSet, jGet, h0, ih]

theorem objSet_eq_self (d : JObj) (k : String) (v : JValue) (h : jGet d k = some v) :
    objSet d k v = d := by
  induction d with
  | nil => simp [jGet] at h
  | cons p rest ih =>
      obtain ⟨k0, v0⟩ := p
      by_cases h0 : k0 = k
      · subst h0
        simp [jGet] at h
        simp [objSet, h]
      · simp [jGet, h0] at h
        simp [objSet, h0, ih h]

theorem jHas_objSet_self (d : JObj) (k : String) (v : JValue) :
    jHas (objSet d k v) k = true := by
  simp [jHas, jGet_objSet_self]

theorem jHas_objSet_ne (d : JObj) (k k' : String) (v : JValue) (h : k' ≠ k) :
    jHas (objSet d k v) k' = jHas d k' := by
  simp [jHas, jGet_objSet_ne d k k' v h]

theorem mem_objSet_cases (d : JObj) (k : String) (v : JValue) (p : String × JValue)
    (h : p ∈ objSet d k v) : p ∈ d ∨ p = (k, v) := by
  induction d with
  | nil => simpa [objSet] using h
  | cons q rest ih =>
      obtain ⟨k0, v0⟩ := q
      by_cases h0 : k0 = k
      · subst h0
        simp [objSet] at h
        rcases h with h | h
        · exact Or.inr (by simp [h])
        · exact Or.inl (by simp [h])
      · simp [objSet, h0] at h
        rcases h with h | h
        · exact Or.inl (by simp [h])
        · rcases ih h with h' | h'
          · exact Or.inl (by simp [h'])
          · exact Or.inr h'

theorem nodupKeys_cons (k : String) (v : JValue) (rest : JObj) :
    nodupKeys ((k, v) :: rest) = true ↔
      ((∀ p ∈ rest, p.1 ≠ k) ∧ nodupKeys rest = true) := by
  simp [nodupKeys, List.any_eq_false]

theorem jGet_eq_some_of_mem (d : JObj) (k : String) (v : JValue)
    (hnd : nodupKeys d = true) (h : (k, v) ∈ d) : jGet d k = some v := by
  induction d with
  | nil => simp at h
  | cons p rest ih =>
      obtain ⟨k0, v0⟩ := p
      rw [nodupKeys_cons] at hnd
      cases h with
      | head => simp [jGet]
      | tail _ h =>
          have hne : k0 ≠ k := fun he => (hnd.1 (k, v) h) (by simp [he])
          simp [jGet, hne, ih hnd.2 h]

theorem mem_of_jGet_eq_some (d : JObj) (k : String) (v : JValue)
    (h : jGet d k = some v) : (k, v) ∈ d := by
  induction d with
  | nil => simp [jGet] at h
  | cons p rest ih =>
      obtain ⟨k0, v0⟩ := p
      by_cases h0 : k0 = k
      · subst h0
        simp [jGet] at h
        simp [h]
      · simp [jGet, h0] at h
        simp [ih h]

theorem jGet_eq_none_of_forall_ne (d : JObj) (k : String)
    (h : ∀ p ∈ d, p.1 ≠ k) : jGet d k = none := by
  induction d with
  | nil => rfl
  | cons p rest ih =>
      obtain ⟨k0, v0⟩ := p
      have h0 : k0 ≠ k := h (k0, v0) (by simp)
      simp [jGet, h0]
      exact ih (fun p hp => h p (by simp [hp]))

theorem nodupKeys_objSet (d : JObj) (k : String) (v : JValue)
    (h : nodupKeys d = true) : nodupKeys (objSet d k v) = true := by
  induction d with
  | nil => simp [objSet, nodupKeys]
  | cons p rest ih =>
      obtain ⟨k0, v0⟩ := p
      rw [nodupKeys_cons] at h
      by_cases h0 : k0 = k
      · subst h0
        simp only [objSet, if_pos rfl]
        exact (nodupKeys_cons _ _ _).2 h
      · simp only [objSet, if_neg h0]
        refine (nodupKeys_cons _ _ _).2 ⟨?_, ih h.2⟩
        intro p hp
        rcases mem_objSet_cases rest k v p hp with h' | h'
        · exact h.1 p h'
        · simp [h']
          exact fun he => h0 (he ▸ rfl)

theorem map_fst_objSet_hit (d : JObj) (k : String) (v : JValue) (h : jHas d k = true) :
    (objSet d k v).map Prod.fst = d.map Prod.fst := by
  induction d with
  | nil => simp [jHas, jGet] at h
  | cons p rest ih =>
      obtain ⟨k0, v0⟩ := p
      by_cases h0 : k0 = k
      · subst h0; simp [objSet]
      · simp [jHas, jGet, h0] at h
        simp [objSet, h0, ih h]

theorem map_fst_objSet_miss (d : JObj) (k : String) (v : JValue) (h : jHas d k = false) :
    (objSet d k v).map Prod.fst = d.map Prod.fst ++ [k] := by
  induction d with
  | nil => simp [objSet]
  | cons p rest ih =>
      obtain ⟨k0, v0⟩ := p
      by_cases h0 : k0 = k
      · subst h0; simp [jHas, jGet] at h
      · simp [jHas, jGet, h0] at h
        simp [objSet, h0, ih (by simp [jHas, h])]

theorem setAll_cons (d : JObj) (k : String) (v : JValue) (ps : JObj) :
    setAll d ((k, v) :: ps) = setAll (objSet d k v) ps := rfl

theorem jGet_setAll_of_forall_ne (ps : JObj) (d : JObj) (k : String)
    (h : ∀ p ∈ ps, p.1 ≠ k) : jGet (setAll d ps) k = jGet d k := by
  induction ps generalizing d with
  | nil => rfl
  | cons p rest ih =>
      obtain ⟨k0, v0⟩ := p
      rw [setAll_cons, ih _ (fun p hp => h p (by simp [hp]))]
      exact jGet_objSet_ne d k0 k v0 (Ne.symm (h (k0, v0) (by simp)))

theorem jGet_setAll_mem (ps : JObj) (d : JObj) (k : String) (v : JValue)
    (hnd : nodupKeys ps = true) (h : jGet ps k = some v) :
    jGet (setAll d ps) k = some v := by
  induction ps generalizing d with
  | nil => simp [jGet] at h
  | cons p rest ih =>
      obtain ⟨k0, v0⟩ := p
      rw [nodupKeys_cons] at hnd
      by_cases h0 : k0 = k
      · subst h0
        simp [jGet] at h
        subst h
        rw [setAll_cons, jGet_setAll_of_forall_ne rest _ k0 hnd.1]
        exact jGet_objSet_self d k0 _
      · simp [jGet, h0] at h
        rw [setAll_cons]
        exact ih _ hnd.2 h

theorem nodupKeys_setAll (ps : JObj) (d : JObj) (h : nodupKeys d = true) :
    nodupKeys (setAll d ps) = true := by
  induction ps generalizing d with
  | nil => exact h
  | cons p rest ih =>
      obtain ⟨k0, v0⟩ := p
      rw [setAll_cons]
      exact ih _ (nodupKeys_objSet d k0 v0 h)

theorem mem_setAll_cases (ps : JObj) (d : JObj) (p : String × JValue)
    (h : p ∈ setAll d ps) : p ∈ d ∨ p ∈ ps := by
  induction ps generalizing d with
  | nil => exact Or.inl h
  | cons q rest ih =>
      obtain ⟨k0, v0⟩ := q
      rw [setAll_cons] at h
      rcases ih _ h with h' | h'
      · rcases mem_objSet_cases d k0 v0 p h' with h'' | h''
        · exact Or.inl h''
        · exact Or.inr (by simp [h''])
      · exact Or.inr (by simp [h'])

theorem map_fst_setAll_append (ps : JObj) (d : JObj) :
    ∃ ks, (setAll d ps).map Prod.fst = d.map Prod.fst ++ ks := by
  induction ps generalizing d with
  | nil => exact ⟨[], by simp [setAll]⟩
  | cons p rest ih =>
      obtain ⟨k0, v0⟩ := p
      rw [setAll_cons]
      obtain ⟨ks, hks⟩ := ih (objSet d k0 v0)
      rcases hh : jHas d k0 with _ | _
      · exact ⟨k0 :: ks, by rw [hks, map_fst_objSet_miss d k0 v0 hh]; simp⟩
      · exact ⟨ks, by rw [hks, map_fst_objSet_hit d k0 v0 hh]⟩

theorem setAll_fresh_cons (ps : JObj) (d : JObj) (k : String) (v : JValue)
    (h : ∀ p ∈ ps, p.1 ≠ k) : setAll ((k, v) :: d) ps = (k, v) :: setAll d ps := by
  induction ps generalizing d v with
  | nil => rfl
  | cons q rest ih =>
      obtain ⟨k0, v0⟩ := q
      have h0 : k0 ≠ k := h (k0, v0) (by simp)
      rw [setAll_cons, show objSet ((k, v) :: d) k0 v0 = (k, v) :: objSet d k0 v0 by
        simp [objSet, h0.symm], ih _ _ (fun p hp => h p (by simp [hp])), setAll_cons]

theorem setAll_nil_left (ps : JObj) (hnd : nodupKeys ps = true) : setAll [] ps = ps := by
  induction ps with
  | nil => rfl
  | cons p rest ih =>
      obtain ⟨k0, v0⟩ := p
      rw [nodupKeys_cons] at hnd
      rw [setAll_cons, show objSet ([] : JObj) k0 v0 = [(k0, v0)] from rfl,
        setAll_fresh_cons rest [] k0 v0 hnd.1, ih hnd.2]

theorem setAll_recover (d m : JObj) (ks : List String) (hnd : nodupKeys m = true)
    (hk : m.map Prod.fst = d.map Prod.fst ++ ks) : setAll d m = m := by
  induction d generalizing m with
  | nil => exact setAll_nil_left m hnd
  | cons p rest ih =>
      obtain ⟨k0, x0⟩ := p
      cases m with
      | nil => simp at hk
      | cons q m' =>
          obtain ⟨k1, v1⟩ := q
          simp only [List.map_cons, List.cons_append, List.cons.injEq] at hk
          obtain ⟨hk1, hk'⟩ := hk
          subst hk1
          rw [nodupKeys_cons] at hnd
          rw [setAll_cons, show objSet ((k1, x0) :: rest) k1 v1 = (k1, v1) :: rest by
            simp [objSet], setAll_fresh_cons m' rest k1 v1 hnd.1, ih m' hnd.2 hk']

theorem WFentries_iff (es : JObj) : WFentries es = true ↔ ∀ kv ∈ es, WF kv.2 = true := by
  induction es with
  | nil => simp [WFentries]
  | cons p rest ih =>
      obtain ⟨k0, v0⟩ := p
      simp only [WFentries, Bool.and_eq_true, ih, List.mem_cons]
      constructor
      · rintro ⟨h1, h2⟩ kv (rfl | hm)
        · exact h1
        · exact h2 kv hm
      · intro h
        exact ⟨h (k0, v0) (Or.inl rfl), fun kv hm => h kv (Or.inr hm)⟩

theorem WFO_eq_WF_obj (es : JObj) : WFO es = WF (JValue.obj es) := rfl

theorem WFO_iff (es : JObj) :
    WFO es = true ↔ (nodupKeys es = true ∧ ∀ kv ∈ es, WF kv.2 = true) := by
  rw [show WFO es = (nodupKeys es && WFentries es) from rfl]
  simp [WFentries_iff]

theorem WF_jGetU (es : JObj) (k : String) (h : WFO es = true) :
    WF (jGetU es k) = true := by
  rcases hg : jGet es k with _ | v
  · simp [jGetU, hg, WF]
  · rw [jGetU, hg, Option.getD_some]
    exact ((WFO_iff es).1 h).2 (k, v) (mem_of_jGet_eq_some es k v hg)

theorem WF_jsOr (a b : JValue) (ha : WF a = true) (hb : WF b = true) :
    WF (jsOr a b) = true := by
  rw [jsOr]
  split <;> assumption

theorem dm_arr_right (t : JValue) (ss : List JValue) :
    deepmergeV t (JValue.arr ss) = JValue.arr ss := by
  cases t <;> rfl

theorem dm_arr_left (xs : List JValue) (s : JValue) :
    deepmergeV (JValue.arr xs) s = s := by
  cases s <;> rfl

theorem dm_obj_right (t : JValue) (so : JObj) (ht : ∀ xs, t ≠ JValue.arr xs) :
    deepmergeV t (JValue.obj so) = JValue.obj (mergeEntries t (entriesOf t) so) := by
  cases t with
  | arr xs => exact absurd rfl (ht xs)
  | str s => rfl
  | num n => rfl
  | bool b => rfl
  | null => rfl
  | undefined => rfl
  | obj es => rfl

theorem dm_nonmergeable_right (t s : JValue) (ht : ∀ xs, t ≠ JValue.arr xs)
    (hs : isMergeable s = false) (hs2 : ∀ es, s ≠ JValue.obj es) :
    deepmergeV t s = JValue.obj (entriesOf t) := by
  cases s with
  | arr ss => simp [isMergeable] at hs
  | obj es => exact absurd rfl (hs2 es)
  | str a => cases t with
    | arr xs => exact absurd rfl (ht xs)
    | _ => rfl
  | num a => cases t with
    | arr xs => exact absurd rfl (ht xs)
    | _ => rfl
  | bool a => cases t with
    | arr xs => exact absurd rfl (ht xs)
    | _ => rfl
  | null => cases t with
    | arr xs => exact absurd rfl (ht xs)
    | _ => rfl
  | undefined => cases t with
    | arr xs => exact absurd rfl (ht xs)
    | _ => rfl

theorem mergeEntries_eq_setAll (so : JObj) (t : JValue) (dst : JObj) :
    mergeEntries t dst so
      = setAll dst (so.map (fun kv => (kv.1, resolveMerge t kv.1 kv.2))) := by
  induction so generalizing dst with
  | nil => rfl
  | cons p rest ih =>
      obtain ⟨k, sv⟩ := p
      rw [show mergeEntries t dst ((k, sv) :: rest)
            = mergeEntries t (objSet dst k (resolveMerge t k sv)) rest from rfl,
        ih, List.map_cons, setAll_cons]

theorem dm_obj_obj (tes so : JObj) :
    deepmergeV (JValue.obj tes) (JValue.obj so)
      = JValue.obj (setAll tes (so.map (fun kv => (kv.1, resolveMerge (JValue.obj tes) kv.1 kv.2)))) := by
  rw [dm_obj_right _ so (fun xs h => JValue.noConfusion h),
    show entriesOf (JValue.obj tes) = tes from rfl, mergeEntries_eq_setAll]

theorem jGet_map_resolve (so : JObj) (t : JValue) (k : String) :
    jGet (so.map (fun kv => (kv.1, resolveMerge t kv.1 kv.2))) k
      = (jGet so k).map (resolveMerge t k) := by
  induction so with
  | nil => rfl
  | cons p rest ih =>
      obtain ⟨k0, v0⟩ := p
      by_cases h0 : k0 = k
      · subst h0; simp [jGet]
      · simp [jGet, h0, ih]

theorem nodupKeys_map_resolve (so : JObj) (t : JValue) :
    nodupKeys (so.map (fun kv => (kv.1, resolveMerge t kv.1 kv.2))) = nodupKeys so := by
  induction so with
  | nil => rfl
  | cons p rest ih =>
      obtain ⟨k0, v0⟩ := p
      simp [nodupKeys, ih, List.any_map]
      rfl

theorem sizeOf_lt_of_mem_entries (es : JObj) (kv : String × JValue) (h : kv ∈ es) :
    sizeOf kv.2 < sizeOf (JValue.obj es) := by
  induction es with
  | nil => simp at h
  | cons p rest ih =>
      cases h with
      | head =>
          obtain ⟨k0, v0⟩ := kv
          simp
          omega
      | tail _ h =>
          have := ih h
          simp at this ⊢
          omega

theorem WF_of_mem_entries (es : JObj) (h : WF (JValue.obj es) = true)
    (kv : String × JValue) (hm : kv ∈ es) : WF kv.2 = true :=
  ((WFO_iff es).1 (by rw [WFO_eq_WF_obj]; exact h)).2 kv hm

theorem nodupKeys_of_WF_obj (es : JObj) (h : WF (JValue.obj es) = true) :
    nodupKeys es = true :=
  ((WFO_iff es).1 (by rw [WFO_eq_WF_obj]; exact h)).1

theorem isMergeable_dm (t s : JValue) (hs : isMergeable s = true) :
    isMergeable (deepmergeV t s) = true := by
  cases s with
  | arr ss => rw [dm_arr_right]; rfl
  | obj so =>
      by_cases hna : ∃ xs, t = JValue.arr xs
      · obtain ⟨xs, rfl⟩ := hna
        rw [dm_arr_left]; rfl
      · rw [dm_obj_right t so (fun xs h => hna ⟨xs, h⟩)]; rfl
  | str s => simp [isMergeable] at hs
  | num n => simp [isMergeable] at hs
  | bool b => simp [isMergeable] at hs
  | null => simp [isMergeable] at hs
  | undefined => simp [isMergeable] at hs

theorem WF_valueGet (a : JValue) (k : String) (ha : WF a = true) :
    WF (valueGet a k) = true := by
  cases a with
  | obj es => exact WF_jGetU es k (by rw [WFO_eq_WF_obj]; exact ha)
  | arr vs => rfl
  | str s => rfl
  | num n => rfl
  | bool b => rfl
  | null => rfl
  | undefined => rfl

theorem nodupKeys_entriesOf (a : JValue) (ha : WF a = true) :
    nodupKeys (entriesOf a) = true := by
  cases a with
  | obj es => exact nodupKeys_of_WF_obj es ha
  | arr vs => rfl
  | str s => rfl
  | num n => rfl
  | bool b => rfl
  | null => rfl
  | undefined => rfl

theorem WF_of_mem_entriesOf (a : JValue) (ha : WF a = true)
    (kv : String × JValue) (h : kv ∈ entriesOf a) : WF kv.2 = true := by
  cases a with
  | obj es => exact WF_of_mem_entries es ha kv h
  | arr vs => simp [entriesOf] at h
  | str s => simp [entriesOf] at h
  | num n => simp [entriesOf] at h
  | bool b => simp [entriesOf] at h
  | null => simp [entriesOf] at h
  | undefined => simp [entriesOf] at h

theorem valueHasKey_get_of_mem (a : JValue) (k : String) (mv : JValue)
    (ha : WF a = true) (h : (k, mv) ∈ entriesOf a) :
    valueHasKey a k = true ∧ valueGet a k = mv := by
  cases a with
  | obj es =>
      have hget : jGet es k = some mv :=
        jGet_eq_some_of_mem es k mv (nodupKeys_of_WF_obj es ha) h
      exact ⟨by simp [valueHasKey, jHas, hget], by simp [valueGet, jGetU, hget]⟩
  | arr vs => simp [entriesOf] at h
  | str s => simp [entriesOf] at h
  | num n => simp [entriesOf] at h
  | bool b => simp [entriesOf] at h
  | null => simp [entriesOf] at h
  | undefined => simp [entriesOf] at h

theorem sizeOf_lt_of_mem_entriesOf (a : JValue) (kv : String × JValue)
    (h : kv ∈ entriesOf a) : sizeOf kv.2 < sizeOf a := by
  cases a with
  | obj es =>
      have := sizeOf_lt_of_mem_entries es kv h
      simpa using this
  | arr vs => simp [entriesOf] at h
  | str s => simp [entriesOf] at h
  | num n => simp [entriesOf] at h
  | bool b => simp [entriesOf] at h
  | null => simp [entriesOf] at h
  | undefined => simp [entriesOf] at h

theorem dm_self (v : JValue) (hm : isMergeable v = true) (hwf : WF v = true) :
    deepmergeV v v = v := by
  cases v with
  | arr xs => exact dm_arr_right _ xs
  | obj es =>
      rw [dm_obj_obj]
      have hnd : nodupKeys es = true := nodupKeys_of_WF_obj es hwf
      have hpt : ∀ kv ∈ es,
          (fun kv : String × JValue => (kv.1, resolveMerge (JValue.obj es) kv.1 kv.2)) kv
            = id kv := by
        intro kv hkv
        obtain ⟨k, sv⟩ := kv
        have hget : jGet es k = some sv := jGet_eq_some_of_mem es k sv hnd hkv
        have hhk : valueHasKey (JValue.obj es) k = true := by
          simp [valueHasKey, jHas, hget]
        have hvg : valueGet (JValue.obj es) k = sv := by
          simp [valueGet, jGetU, hget]
        cases hms : isMergeable sv with
        | false => simp [resolveMerge, hms]
        | true =>
            have hrec := dm_self sv hms (WF_of_mem_entries es hwf (k, sv) hkv)
            simp [resolveMerge, hhk, hms, hvg, hrec]
      rw [(List.map_congr_left hpt).trans (List.map_id es)]
      congr 1
      exact setAll_recover es es [] hnd (by simp)
  | str s => simp [isMergeable] at hm
  | num n => simp [isMergeable] at hm
  | bool b => simp [isMergeable] at hm
  | null => simp [isMergeable] at hm
  | undefined => simp [isMergeable] at hm
termination_by sizeOf v
decreasing_by
  have h2 := sizeOf_lt_of_mem_entries es _ hkv
  subst_vars
  simpa using h2

theorem dm_absorb_scalar (a b : JValue) (ha : WF a = true)
    (hna : ∀ xs, a ≠ JValue.arr xs) (hbm : isMergeable b = false)
    (hbo : ∀ es, b ≠ JValue.obj es) :
    deepmergeV a (deepmergeV a b) = deepmergeV a b := by
  rw [dm_nonmergeable_right a b hna hbm hbo]
  cases a with
  | arr xs => exact absurd rfl (hna xs)
  | obj es => exact dm_self (JValue.obj es) rfl ha
  | str s => rw [dm_obj_right _ _ hna]; rfl
  | num n => rw [dm_obj_right _ _ hna]; rfl
  | bool b' => rw [dm_obj_right _ _ hna]; rfl
  | null => rw [dm_obj_right _ _ hna]; rfl
  | undefined => rw [dm_obj_right _ _ hna]; rfl

theorem dm_absorb (a b : JValue) (ha : WF a = true) (hb : WF b = true) :
    deepmergeV a (deepmergeV a b) = deepmergeV a b := by
  by_cases hexa : ∃ xs, a = JValue.arr xs
  · obtain ⟨xs, rfl⟩ := hexa
    rw [dm_arr_left, dm_arr_left]
  · have hna : ∀ xs, a ≠ JValue.arr xs := fun xs h => hexa ⟨xs, h⟩
    cases b with
    | arr ss => rw [dm_arr_right, dm_arr_right]
    | str s => exact dm_absorb_scalar a _ ha hna rfl (fun _ h => JValue.noConfusion h)
    | num n => exact dm_absorb_scalar a _ ha hna rfl (fun _ h => JValue.noConfusion h)
    | bool b' => exact dm_absorb_scalar a _ ha hna rfl (fun _ h => JValue.noConfusion h)
    | null => exact dm_absorb_scalar a _ ha hna rfl (fun _ h => JValue.noConfusion h)
    | undefined => exact dm_absorb_scalar a _ ha hna rfl (fun _ h => JValue.noConfusion h)
    | obj so =>
        have hnds : nodupKeys so = true := nodupKeys_of_WF_obj so hb
        rw [dm_obj_right a so hna, mergeEntries_eq_setAll,
          dm_obj_right a _ hna, mergeEntries_eq_setAll]
        congr 1
        have hpt : ∀ kv ∈ setAll (entriesOf a)
            (so.map (fun kv : String × JValue => (kv.1, resolveMerge a kv.1 kv.2))),
            (fun kv : String × JValue => (kv.1, resolveMerge a kv.1 kv.2)) kv = id kv := by
          intro kv hkv
          obtain ⟨k, mv⟩ := kv
          simp only [id_eq, Prod.mk.injEq, true_and]
          rcases mem_setAll_cases _ _ _ hkv with hmem | hmem
          · obtain ⟨hhk, hvg⟩ := valueHasKey_get_of_mem a k mv ha hmem
            cases hms : isMergeable mv with
            | false => simp [resolveMerge, hms]
            | true =>
                simp [resolveMerge, hhk, hms, hvg]
                exact dm_self mv hms (WF_of_mem_entriesOf a ha (k, mv) hmem)
          · obtain ⟨⟨k', sv⟩, hsv, heq⟩ := List.mem_map.1 hmem
            obtain ⟨rfl, rfl⟩ : k' = k ∧ resolveMerge a k' sv = mv := by
              exact ⟨congrArg Prod.fst heq, congrArg Prod.snd heq⟩
            by_cases hc : valueHasKey a k' = true ∧ isMergeable sv = true
            · have hr : resolveMerge a k' sv = deepmergeV (valueGet a k') sv := by
                simp [resolveMerge, hc.1, hc.2]
              have hmrg : isMergeable (deepmergeV (valueGet a k') sv) = true :=
                isMergeable_dm _ _ hc.2
              rw [hr]
              simp only [resolveMerge, hc.1, hmrg, Bool.and_self, if_pos]
              exact dm_absorb (valueGet a k') sv (WF_valueGet a k' ha)
                (WF_of_mem_entries so hb (k', sv) hsv)
            · have hcf : (valueHasKey a k' && isMergeable sv) = false := by
                cases h1 : valueHasKey a k' with
                | false => simp [h1]
                | true =>
                    cases h2 : isMergeable sv with
                    | false => simp [h2]
                    | true => exact absurd ⟨h1, h2⟩ hc
              have hr : resolveMerge a k' sv = sv := by
                simp [resolveMerge, hcf]
              rw [hr, hr]
        rw [(List.map_congr_left hpt).trans (List.map_id _)]
        obtain ⟨ks, hks⟩ := map_fst_setAll_append
          (so.map (fun kv : String × JValue => (kv.1, resolveMerge a kv.1 kv.2))) (entriesOf a)
        exact setAll_recover (entriesOf a) _ ks
          (nodupKeys_setAll _ _ (nodupKeys_entriesOf a ha)) hks
termination_by sizeOf b
decreasing_by
  have h2 := sizeOf_lt_of_mem_entries so _ hsv
  subst_vars
  simpa using h2

theorem WF_obj_entriesOf (a : JValue) (ha : WF a = true)
    (hna : ∀ xs, a ≠ JValue.arr xs) : WF (JValue.obj (entriesOf a)) = true := by
  cases a with
  | obj es => exact ha
  | arr xs => exact absurd rfl (hna xs)
  | str s => rfl
  | num n => rfl
  | bool b => rfl
  | null => rfl
  | undefined => rfl

theorem WF_dm (a b : JValue) (ha : WF a = true) (hb : WF b = true) :
    WF (deepmergeV a b) = true := by
  by_cases hexa : ∃ xs, a = JValue.arr xs
  · obtain ⟨xs, rfl⟩ := hexa
    cases b with
    | arr ss => rw [dm_arr_right]; exact hb
    | _ => rw [dm_arr_left]; exact hb
  · have hna : ∀ xs, a ≠ JValue.arr xs := fun xs h => hexa ⟨xs, h⟩
    cases b with
    | arr ss => rw [dm_arr_right]; exact hb
    | str s => rw [dm_nonmergeable_right a (JValue.str s) hna rfl (fun _ h => JValue.noConfusion h)]
               exact WF_obj_entriesOf a ha hna
    | num n => rw [dm_nonmergeable_right a (JValue.num n) hna rfl (fun _ h => JValue.noConfusion h)]
               exact WF_obj_entriesOf a ha hna
    | bool b2 => rw [dm_nonmergeable_right a (JValue.bool b2) hna rfl (fun _ h => JValue.noConfusion h)]
                 exact WF_obj_entriesOf a ha hna
    | null => rw [dm_nonmergeable_right a JValue.null hna rfl (fun _ h => JValue.noConfusion h)]
              exact WF_obj_entriesOf a ha hna
    | undefined =>
        rw [dm_nonmergeable_right a JValue.undefined hna rfl
          (fun _ h => JValue.noConfusion h)]
        exact WF_obj_entriesOf a ha hna
    | obj so =>
        rw [dm_obj_right a so hna, mergeEntries_eq_setAll, ← WFO_eq_WF_obj, WFO_iff]
        refine ⟨nodupKeys_setAll _ _ (nodupKeys_entriesOf a ha), ?_⟩
        intro kv hkv
        rcases mem_setAll_cases _ _ _ hkv with hmem | hmem
        · exact WF_of_mem_entriesOf a ha kv hmem
        · obtain ⟨⟨k', sv⟩, hsv, heq⟩ := List.mem_map.1 hmem
          rw [← heq]
          show WF (resolveMerge a k' sv) = true
          cases hc : (valueHasKey a k' && isMergeable sv) with
          | false =>
              rw [show resolveMerge a k' sv = sv by simp [resolveMerge, hc]]
              exact WF_of_mem_entries so hb _ hsv
          | true =>
              rw [show resolveMerge a k' sv = deepmergeV (valueGet a k') sv by
                simp [resolveMerge, hc]]
              exact WF_dm (valueGet a k') sv (WF_valueGet a k' ha)
                (WF_of_mem_entries so hb _ hsv)
termination_by sizeOf b
decreasing_by
  have h2 := sizeOf_lt_of_mem_entries so _ hsv
  subst_vars
  simpa using h2

theorem pathHasV_nil (v : JValue) : pathHasV v [] = true := by
  cases v <;> rfl

theorem pathHasV_dm (s : JValue) (p : List String) (t : JValue) (hs : WF s = true)
    (h : pathHasV s p = true) : pathHasV (deepmergeV t s) p = true := by
  cases p with
  | nil => exact pathHasV_nil _
  | cons k rest =>
      cases s with
      | obj so =>
          cases hg : jGet so k with
          | none => simp [pathHasV, hg] at h
          | some v =>
              simp only [pathHasV, hg] at h
              by_cases hexa : ∃ xs, t = JValue.arr xs
              · obtain ⟨xs, rfl⟩ := hexa
                rw [dm_arr_left]
                simp [pathHasV, hg, h]
              · have hna : ∀ xs, t ≠ JValue.arr xs := fun xs hh => hexa ⟨xs, hh⟩
                rw [dm_obj_right t so hna, mergeEntries_eq_setAll]
                have hnds := nodupKeys_of_WF_obj so hs
                have hget2 : jGet (setAll (entriesOf t)
                    (so.map (fun kv : String × JValue => (kv.1, resolveMerge t kv.1 kv.2)))) k
                    = some (resolveMerge t k v) := by
                  apply jGet_setAll_mem
                  · rw [nodupKeys_map_resolve]; exact hnds
                  · rw [jGet_map_resolve, hg]; rfl
                simp only [pathHasV, hget2]
                cases hc : (valueHasKey t k && isMergeable v) with
                | false =>
                    rw [show resolveMerge t k v = v by simp [resolveMerge, hc]]
                    exact h
                | true =>
                    rw [show resolveMerge t k v = deepmergeV (valueGet t k) v by
                      simp [resolveMerge, hc]]
                    exact pathHasV_dm v rest (valueGet t k)
                      (WF_of_mem_entries so hs (k, v) (mem_of_jGet_eq_some so k v hg)) h
      | arr vs => simp [pathHasV] at h
      | str s' => simp [pathHasV] at h
      | num n => simp [pathHasV] at h
      | bool b => simp [pathHasV] at h
      | null => simp [pathHasV] at h
      | undefined => simp [pathHasV] at h
termination_by sizeOf s
decreasing_by
  have h2 := sizeOf_lt_of_mem_entries so _ (mem_of_jGet_eq_some so k v hg)
  subst_vars
  simpa using h2

theorem fixKey_eq_self (k : String) (h : noBackslash k = true) : fixKey k = k := by
  have hall : ∀ c ∈ k.data, ¬ c = '\\' := by
    simpa [noBackslash] using h
  rw [fixKey]
  have hmap : k.data.map (fun c => if c = '\\' then '/' else c) = k.data := by
    refine (List.map_congr_left ?_).trans (List.map_id _)
    intro c hc
    simp [hall c hc]
  rw [hmap]

theorem jsOr_chain (a b : JValue) : jsOr a (jsOr a b) = jsOr a b := by
  by_cases h : truthy a = true
  · simp [jsOr, h]
  · simp [jsOr, h]

theorem getVal_noBackslash (es : JObj) (k : String) (h : noBackslash k = true) :
    getVal es k = jsOr (jGetU es k) JValue.undefined := by
  rw [getVal, getWithDefault, fixKey_eq_self k h, jsOr_chain]

theorem truthy_of_isObject (v : JValue) (h : isObject v = true) : truthy v = true := by
  cases v <;> simp [isObject, truthy] at h ⊢

theorem jGet_of_isObject_getVal (es : JObj) (k : String) (hk : noBackslash k = true)
    (h : isObject (getVal es k) = true) : jGet es k = some (getVal es k) := by
  rw [getVal_noBackslash es k hk] at h ⊢
  cases hg : jGet es k with
  | none => simp [jGetU, hg, jsOr, truthy, isObject] at h
  | some w =>
      by_cases hw : truthy w = true
      · simp [jGetU, hg, jsOr, hw]
      · simp [jGetU, hg, jsOr, hw, isObject] at h

theorem WF_getVal (es : JObj) (k : String) (hs : WFO es = true) :
    WF (getVal es k) = true := by
  rw [getVal, getWithDefault]
  exact WF_jsOr _ _ (WF_jGetU es k hs) (WF_jsOr _ _ (WF_jGetU es (fixKey k) hs) rfl)

theorem WFO_objSet (s : JObj) (k : String) (v : JValue) (hs : WFO s = true)
    (hv : WF v = true) : WFO (objSet s k v) = true := by
  rw [WFO_iff] at hs ⊢
  refine ⟨nodupKeys_objSet s k v hs.1, ?_⟩
  intro kv hkv
  rcases mem_objSet_cases s k v kv hkv with h | h
  · exact hs.2 kv h
  · rw [h]; exact hv

theorem WFO_mergeStep (s : JObj) (k : String) (old : JValue) (hs : WFO s = true)
    (hold : WF old = true) : WFO (mergeStep s k old) = true := by
  simp only [mergeStep]
  split
  · split
    · exact WFO_objSet s k _ hs (WF_dm old _ hold (WF_getVal s k hs))
    · exact hs
  · exact WFO_objSet s k old hs hold

theorem jGet_mergeStep_ne (s : JObj) (k : String) (old : JValue) (k2 : String)
    (h : k2 ≠ k) : jGet (mergeStep s k old) k2 = jGet s k2 := by
  simp only [mergeStep]
  split
  · split
    · exact jGet_objSet_ne s k k2 _ h
    · rfl
  · exact jGet_objSet_ne s k k2 _ h

theorem jHas_mergeStep_mono (s : JObj) (k : String) (old : JValue) (k2 : String)
    (h : jHas s k2 = true) : jHas (mergeStep s k old) k2 = true := by
  by_cases hk : k2 = k
  · subst hk
    simp only [mergeStep]
    split
    · split
      · exact jHas_objSet_self s k2 _
      · exact h
    · exact jHas_objSet_self s k2 _
  · simp only [jHas, jGet_mergeStep_ne s k old k2 hk]
    exact h

theorem WF_of_jGet_some (s : JObj) (k : String) (w : JValue) (hs : WFO s = true)
    (h : jGet s k = some w) : WF w = true :=
  ((WFO_iff s).1 hs).2 (k, w) (mem_of_jGet_eq_some s k w h)

theorem pathHasV_obj_mergeStep (s : JObj) (k : String) (old : JValue) (p : List String)
    (hs : WFO s = true) (h : pathHasV (JValue.obj s) p = true) :
    pathHasV (JValue.obj (mergeStep s k old)) p = true := by
  cases p with
  | nil => rfl
  | cons k2 rest =>
      simp only [pathHasV] at h ⊢
      by_cases hk : k2 = k
      · subst hk
        cases hg : jGet s k2 with
        | none => rw [hg] at h; simp at h
        | some w =>
            rw [hg] at h
            by_cases hhk : hasKeyDual s k2 = true
            · by_cases hio : (isObject old && isObject (getVal s k2)) = true
              · rw [show mergeStep s k2 old = objSet s k2 (deepmergeV old (getVal s k2)) by
                  simp [mergeStep, hhk, hio]]
                rw [jGet_objSet_self]
                by_cases hw : truthy w = true
                · have hcur : getVal s k2 = w := by
                    simp [getVal, getWithDefault, jGetU, hg, jsOr, hw]
                  rw [hcur]
                  exact pathHasV_dm w rest old (WF_of_jGet_some s k2 w hs hg) h
                · cases rest with
                  | nil => exact pathHasV_nil _
                  | cons r rs =>
                      exfalso
                      cases w <;> simp [pathHasV, truthy] at h hw
              · rw [show mergeStep s k2 old = s by simp [mergeStep, hhk, hio]]
                rw [hg]
                exact h
            · exfalso
              have : jHas s k2 = true := by simp [jHas, hg]
              simp [hasKeyDual, lodashHas, this] at hhk
      · rw [jGet_mergeStep_ne s k old k2 hk]
        exact h

theorem lodashHas_mergeStep_mono (s : JObj) (k : String) (old : JValue) (k2 : String)
    (hs : WFO s = true) (h : lodashHas s k2 = true) :
    lodashHas (mergeStep s k old) k2 = true := by
  rw [lodashHas] at h ⊢
  by_cases hh : jHas s k2 = true
  · simp [jHas_mergeStep_mono s k old k2 hh]
  · rw [if_neg (by simp [hh])] at h
    cases hd : stringHasDot k2 with
    | false => rw [hd] at h; simp at h
    | true =>
        rw [hd] at h
        simp only [if_true] at h
        have h2 := pathHasV_obj_mergeStep s k old (splitOnDot k2) hs h
        split
        · rfl
        · simpa using h2

theorem hasKeyDual_mergeStep_mono (s : JObj) (k : String) (old : JValue) (k2 : String)
    (hs : WFO s = true) (h : hasKeyDual s k2 = true) :
    hasKeyDual (mergeStep s k old) k2 = true := by
  rw [hasKeyDual, Bool.or_eq_true] at h ⊢
  rcases h with h | h
  · exact Or.inl (lodashHas_mergeStep_mono s k old k2 hs h)
  · exact Or.inr (lodashHas_mergeStep_mono s k old (fixKey k2) hs h)

theorem hasKeyDual_mergeStep_self (s : JObj) (k : String) (old : JValue) :
    hasKeyDual (mergeStep s k old) k = true := by
  simp only [mergeStep]
  split
  · split
    · simp [hasKeyDual, lodashHas, jHas_objSet_self]
    · rename_i hhk _
      exact hhk
  · simp [hasKeyDual, lodashHas, jHas_objSet_self]

theorem isMergeable_of_isObject (v : JValue) (h : isObject v = true) :
    isMergeable v = true := by
  cases v <;> simp [isObject, isMergeable] at h ⊢

theorem mergeStep_stable (k : String) (old : JValue) (s1 s3 : JObj)
    (hk : noBackslash k = true) (hold : WF old = true)
    (hs1 : WFO s1 = true) (hs3 : WFO s3 = true)
    (H1 : jGet s3 k = jGet (mergeStep s1 k old) k)
    (H2 : hasKeyDual s3 k = true) :
    mergeStep s3 k old = s3 := by
  have hstep : mergeStep s3 k old
      = if isObject old && isObject (getVal s3 k)
        then objSet s3 k (deepmergeV old (getVal s3 k)) else s3 := by
    simp [mergeStep, H2]
  rw [hstep]
  cases hio : (isObject old && isObject (getVal s3 k)) with
  | false => simp
  | true =>
      obtain ⟨ho, hc3⟩ : isObject old = true ∧ isObject (getVal s3 k) = true := by
        constructor <;> [exact Bool.and_elim_left hio; exact Bool.and_elim_right hio]
      have hget3 : jGet s3 k = some (getVal s3 k) := jGet_of_isObject_getVal s3 k hk hc3
      have key : deepmergeV old (getVal s3 k) = getVal s3 k := by
        by_cases hhk1 : hasKeyDual s1 k = true
        · by_cases hio1 : (isObject old && isObject (getVal s1 k)) = true
          · have hw : jGet (mergeStep s1 k old) k
                = some (deepmergeV old (getVal s1 k)) := by
              rw [show mergeStep s1 k old = objSet s1 k (deepmergeV old (getVal s1 k)) by
                simp [mergeStep, hhk1, hio1], jGet_objSet_self]
            have hcur : getVal s3 k = deepmergeV old (getVal s1 k) :=
              Option.some.inj (hget3.symm.trans (H1.trans hw))
            rw [hcur]
            exact dm_absorb old (getVal s1 k) hold (WF_getVal s1 k hs1)
          · have hstep1 : mergeStep s1 k old = s1 := by
              simp [mergeStep, hhk1, hio1]
            rw [hstep1] at H1
            have hg1 : jGet s1 k = some (getVal s3 k) := H1 ▸ hget3
            have hcur1 : getVal s1 k = getVal s3 k := by
              rw [getVal_noBackslash s1 k hk]
              simp [jGetU, hg1, jsOr, truthy_of_isObject _ hc3]
            exfalso
            apply hio1
            rw [hcur1]
            simp [ho, hc3]
        · have hw : jGet (mergeStep s1 k old) k = some old := by
            rw [show mergeStep s1 k old = objSet s1 k old by
              simp [mergeStep, hhk1], jGet_objSet_self]
          have hcur : getVal s3 k = old :=
            Option.some.inj (hget3.symm.trans (H1.trans hw))
          rw [hcur]
          exact dm_self old (isMergeable_of_isObject old ho) hold
      rw [key]
      simp [objSet_eq_self s3 k _ hget3]

theorem mergeLoop_cons (s : JObj) (k : String) (old : JValue) (rest : JObj) :
    mergeLoop s ((k, old) :: rest) = mergeLoop (mergeStep s k old) rest := rfl

theorem jGet_mergeLoop_of_forall_ne (data : JObj) :
    ∀ (s : JObj) (k : String), (∀ kv ∈ data, kv.1 ≠ k) →
      jGet (mergeLoop s data) k = jGet s k := by
  induction data with
  | nil => intro s k _; rfl
  | cons p rest ih =>
      intro s k h
      obtain ⟨k0, old0⟩ := p
      rw [mergeLoop_cons, ih _ k (fun kv hkv => h kv (by simp [hkv])),
        jGet_mergeStep_ne s k0 old0 k (Ne.symm (h (k0, old0) (by simp)))]

theorem WFO_mergeLoop (data : JObj) :
    ∀ (s : JObj), WFO s = true → (∀ kv ∈ data, WF kv.2 = true) →
      WFO (mergeLoop s data) = true := by
  induction data with
  | nil => intro s hs _; exact hs
  | cons p rest ih =>
      intro s hs h
      obtain ⟨k0, old0⟩ := p
      rw [mergeLoop_cons]
      exact ih _ (WFO_mergeStep s k0 old0 hs (h (k0, old0) (by simp)))
        (fun kv hkv => h kv (by simp [hkv]))

theorem hasKeyDual_mergeLoop_mono (data : JObj) :
    ∀ (s : JObj) (k : String), WFO s = true → (∀ kv ∈ data, WF kv.2 = true) →
      hasKeyDual s k = true → hasKeyDual (mergeLoop s data) k = true := by
  induction data with
  | nil => intro s k _ _ h; exact h
  | cons p rest ih =>
      intro s k hs hwf h
      obtain ⟨k0, old0⟩ := p
      rw [mergeLoop_cons]
      exact ih _ k (WFO_mergeStep s k0 old0 hs (hwf (k0, old0) (by simp)))
        (fun kv hkv => hwf kv (by simp [hkv]))
        (hasKeyDual_mergeStep_mono s k0 old0 k hs h)

theorem dataOK_cons (k : String) (old : JValue) (rest : JObj) :
    dataOK ((k, old) :: rest) = true ↔
      ((∀ p ∈ rest, p.1 ≠ k) ∧ WF old = true ∧ noBackslash k = true
        ∧ dataOK rest = true) := by
  simp only [dataOK, nodupKeys, List.all_cons, Bool.and_eq_true, Bool.not_eq_true',
    List.any_eq_false]
  constructor
  · rintro ⟨⟨h1, h2⟩, ⟨h3, h4⟩, h5⟩
    refine ⟨?_, h3, h4, h2, h5⟩
    intro p hp
    simpa using h1 p hp
  · rintro ⟨h1, h3, h4, h2, h5⟩
    refine ⟨⟨?_, h2⟩, ⟨h3, h4⟩, h5⟩
    intro p hp
    simpa using h1 p hp

theorem dataOK_values_WF (data : JObj) (hd : dataOK data = true) :
    ∀ kv ∈ data, WF kv.2 = true := by
  induction data with
  | nil => intro kv hkv; simp at hkv
  | cons p rest ih =>
      obtain ⟨k0, old0⟩ := p
      rw [dataOK_cons] at hd
      intro kv hkv
      cases hkv with
      | head => exact hd.2.1
      | tail _ hkv => exact ih hd.2.2.2 kv hkv

theorem mergeLoop_stable_all (data : JObj) :
    ∀ (s : JObj), WFO s = true → dataOK data = true →
      ∀ kv ∈ data, mergeStep (mergeLoop s data) kv.1 kv.2 = mergeLoop s data := by
  induction data with
  | nil => intro s _ _ kv hkv; simp at hkv
  | cons p rest ih =>
      intro s hs hd kv hkv
      obtain ⟨k0, old0⟩ := p
      rw [dataOK_cons] at hd
      obtain ⟨hne, hold0, hk0, hdrest⟩ := hd
      have hs2 : WFO (mergeStep s k0 old0) = true := WFO_mergeStep s k0 old0 hs hold0
      rw [mergeLoop_cons]
      cases hkv with
      | head =>
          have hrestWF := dataOK_values_WF rest hdrest
          apply mergeStep_stable k0 old0 s _ hk0 hold0 hs
            (WFO_mergeLoop rest _ hs2 hrestWF)
          · rw [jGet_mergeLoop_of_forall_ne rest _ k0 hne]
          · exact hasKeyDual_mergeLoop_mono rest _ k0 hs2 hrestWF
              (hasKeyDual_mergeStep_self s k0 old0)
      | tail _ hkv => exact ih _ hs2 hdrest kv hkv

theorem mergeLoop_id_of_stable (data : JObj) :
    ∀ (s : JObj), (∀ kv ∈ data, mergeStep s kv.1 kv.2 = s) → mergeLoop s data = s := by
  induction data with
  | nil => intro s _; rfl
  | cons p rest ih =>
      intro s h
      obtain ⟨k0, old0⟩ := p
      rw [mergeLoop_cons, h (k0, old0) (by simp)]
      exact ih s (fun kv hkv => h kv (by simp [hkv]))

theorem warnOnce_assets (msg : String) (st : MState) :
    (warnOnce msg st).assets = st.assets := by
  rw [warnOnce]
  split <;> rfl

theorem warnOnce_isMerging (msg : String) (st : MState) :
    (warnOnce msg st).isMerging = st.isMerging := by
  rw [warnOnce]
  split <;> rfl

theorem warnOnce_WF (msg : String) (st : MState) (h : WarnWF st) :
    WarnWF (warnOnce msg st) := by
  rw [warnOnce]
  split
  · exact h
  · rename_i hnotin
    refine ⟨?_, ?_⟩
    · rw [List.nodup_append]
      refine ⟨h.1, List.nodup_singleton msg, ?_⟩
      intro m hm hm2
      simp at hm2
      subst hm2
      exact hnotin ((h.2 m).1 hm)
    · intro m
      simp only [List.mem_append, List.mem_singleton, List.mem_cons, h.2 m,
        List.not_mem_nil, or_false]
      exact Or.comm

/-- Claim C9: at every run-start event (beforeRun and watchRun) the
asset-name index is cleared to empty — so no mapping from a previous run
remains visible — while the manifest store itself is untouched and persists
across builds in the same process. -/
theorem C9_run_start_reset (e : RunStartEvent) (st : RunState) :
    (runStartHandler e st).assetNames = []
    ∧ (∀ m, m ∉ (runStartHandler e st).assetNames)
    ∧ (runStartHandler e st).assets = st.assets := by
  cases e <;> exact ⟨rfl, by simp [runStartHandler, handleBeforeRun], rfl⟩

/-- Claim C10 (code bug, evaluated at the failing input): the afterOptions
assets merge is claimed (and documented in the source comment on lines 75-76)
to let options.assets win on duplicate keys, but because the third
`Object.assign` source aliases the target, the second copy is a no-op and the
pre-apply assets value wins: with seed `(app.js : seed.js)` and pre-apply
entry `(app.js : preapply.js)`, the stored value is `preapply.js`. -/
theorem C10_afterOptions_seed_eval :
    afterOptionsAssets [("app.js", JValue.str "seed.js")]
        [("app.js", JValue.str "preapply.js")]
      = [("app.js", JValue.str "preapply.js")]
    ∧ JValue.str "preapply.js" ≠ JValue.str "seed.js" :=
  ⟨rfl, by simp⟩

/-- Claim C2 (counterexample): the claim that the advisory lock is released
unconditionally, success or failure, is false — when the file write fails,
`writeTo` rejects before its unlock statement runs and the lock on the
manifest path is still held afterwards. -/
theorem C2_lock_release_counterexample :
    (writeToModel "assets-manifest.json" true false []).ok = false
    ∧ (writeToModel "assets-manifest.json" true false []).locks
        = ["assets-manifest.json"]
    ∧ (emitAssetsManifestModel "assets-manifest.json" true false []).ok = false
    ∧ (emitAssetsManifestModel "assets-manifest.json" true false []).locks
        = ["assets-manifest.json"] :=
  ⟨rfl, rfl, rfl, rfl⟩

/-- Claim C2 (amended): in both persistence paths the advisory lock on the
manifest path is released when the protected operations succeed (and the
emit path takes no lock at all when merge is disabled); when a protected
operation fails, the lock remains held because neither function has a
try/finally around its critical section. -/
theorem C2_lock_release_amended (dest output : String)
    (mkdirOk writeOk mergeOn emitOk : Bool) (held : List String) :
    ((writeToModel dest mkdirOk writeOk held).ok = true →
      (writeToModel dest mkdirOk writeOk held).locks = held)
    ∧ ((writeToModel dest mkdirOk writeOk held).ok = false →
      dest ∈ (writeToModel dest mkdirOk writeOk held).locks)
    ∧ ((emitAssetsManifestModel output mergeOn emitOk held).ok = true →
      (emitAssetsManifestModel output mergeOn emitOk held).locks = held)
    ∧ (mergeOn = true → (emitAssetsManifestModel output mergeOn emitOk held).ok = false →
      output ∈ (emitAssetsManifestModel output mergeOn emitOk held).locks)
    ∧ (mergeOn = false →
      (emitAssetsManifestModel output mergeOn emitOk held).locks = held) := by
  refine ⟨?_, ?_, ?_, ?_, ?_⟩ <;>
    cases mkdirOk <;> cases writeOk <;> cases mergeOn <;> cases emitOk <;>
      simp [writeToModel, emitAssetsManifestModel]

/-- Claim C2 (witness for the amended theorem): a successful write releases
the lock it took. -/
theorem C2_lock_release_witness :
    (writeToModel "out/m.json" true true ["other.lock"]).ok = true
    ∧ (writeToModel "out/m.json" true true ["other.lock"]).locks = ["other.lock"]
    ∧ (emitAssetsManifestModel "m.json" true true []).locks = [] :=
  ⟨rfl,
    (C2_lock_release_amended "out/m.json" "m.json" true true true true
      ["other.lock"]).1 rfl,
    (C2_lock_release_amended "out/m.json" "m.json" true true true true []).2.2.1 rfl⟩

/-- Claim C5: when reading or parsing the on-disk manifest fails during
maybeMerge (modelled by `readResult = none`), the catch swallows the error
and the in-memory store is exactly as before the call; and in every
execution — merge disabled, read failure, or successful merge — the merging
flag is false after the call returns (it is false on entry by the plugin
invariant, raised inside the try, and cleared in the finally block). -/
theorem C5_merge_failure_noop (mergeOn : Bool) (readResult : Option JObj)
    (st : MState) (h : st.isMerging = false) :
    (readResult = none → (maybeMergeModel mergeOn readResult st).assets = st.assets)
    ∧ (maybeMergeModel mergeOn readResult st).isMerging = false := by
  cases mergeOn with
  | false => exact ⟨fun _ => rfl, h⟩
  | true =>
      cases readResult with
      | none => exact ⟨fun _ => rfl, rfl⟩
      | some data => exact ⟨fun hc => by simp at hc, rfl⟩

/-- Claim C5 (witness): a concrete failed read leaves a one-entry store
untouched and the merging flag cleared. -/
theorem C5_merge_failure_witness :
    (⟨[("a.js", JValue.str "a.1.js")], false, [], []⟩ : MState).isMerging = false
    ∧ ((Option.none : Option JObj) = none →
        (maybeMergeModel true none ⟨[("a.js", JValue.str "a.1.js")], false, [], []⟩).assets
          = [("a.js", JValue.str "a.1.js")])
    ∧ (maybeMergeModel true none
        ⟨[("a.js", JValue.str "a.1.js")], false, [], []⟩).isMerging = false :=
  ⟨rfl,
    (C5_merge_failure_noop true none ⟨[("a.js", JValue.str "a.1.js")], false, [], []⟩ rfl).1,
    (C5_merge_failure_noop true none ⟨[("a.js", JValue.str "a.1.js")], false, [], []⟩ rfl).2⟩

/-- Claim C7 (counterexample): `get` does not return the stored value
whenever an entry exists — JS `||` falls through on falsy stored values, so
with `{"k": ""}` in the store, `get("k", "fallback")` returns the fallback
even though an entry exists under the raw key. -/
theorem C7_get_counterexample :
    jGet [("k", JValue.str "")] "k" = some (JValue.str "")
    ∧ getWithDefault [("k", JValue.str "")] "k" (JValue.str "fallback")
        = JValue.str "fallback"
    ∧ JValue.str "fallback" ≠ JValue.str "" :=
  ⟨rfl, rfl, by simp⟩

/-- Claim C7 (amended): `get(k, d)` returns the first JS-truthy value among
the entry under the raw key and the entry under the slash-normalized key, in
that order, and returns `d` exactly when both lookups yield a missing or
falsy value. -/
theorem C7_get_amended (es : JObj) (k : String) (d : JValue) :
    (∀ v, jGet es k = some v → truthy v = true → getWithDefault es k d = v)
    ∧ (∀ v, truthy (jGetU es k) = false → jGet es (fixKey k) = some v →
        truthy v = true → getWithDefault es k d = v)
    ∧ (truthy (jGetU es k) = false → truthy (jGetU es (fixKey k)) = false →
        getWithDefault es k d = d) := by
  refine ⟨?_, ?_, ?_⟩
  · intro v hg hv
    simp [getWithDefault, jGetU, hg, jsOr, hv]
  · intro v h1 hg hv
    rw [getWithDefault, jsOr, if_neg (by simp [h1])]
    simp [jGetU, hg, jsOr, hv]
  · intro h1 h2
    rw [getWithDefault, jsOr, if_neg (by simp [h1]), jsOr, if_neg (by simp [h2])]

/-- Claim C7 (witness for the amended theorem): a truthy raw entry is
returned; a store with only falsy values yields the default. -/
theorem C7_get_witness :
    jGet [("a.js", JValue.str "a.1.js")] "a.js" = some (JValue.str "a.1.js")
    ∧ truthy (JValue.str "a.1.js") = true
    ∧ getWithDefault [("a.js", JValue.str "a.1.js")] "a.js" (JValue.str "d")
        = JValue.str "a.1.js" :=
  ⟨rfl, rfl,
    (C7_get_amended [("a.js", JValue.str "a.1.js")] "a.js" (JValue.str "d")).1
      (JValue.str "a.1.js") rfl rfl⟩

theorem splitCharsOn_no_sep (sep : Char) (cs : List Char) (h : ∀ c ∈ cs, c ≠ sep) :
    splitCharsOn sep cs = [cs] := by
  induction cs with
  | nil => rfl
  | cons c rest ih =>
      have hc : c ≠ sep := h c (by simp)
      simp [splitCharsOn, hc, ih (fun c2 hc2 => h c2 (by simp [hc2]))]

theorem splitOnDot_no_dot (k : String) (h : stringHasDot k = false) :
    splitOnDot k = [k] := by
  have hall : ∀ c ∈ k.data, c ≠ '.' := by
    intro c hc
    simp only [stringHasDot, List.any_eq_false] at h
    simpa using h c hc
  rw [splitOnDot, splitCharsOn_no_sep '.' k.data hall]
  rfl

/-- Claim C3: when `set` runs outside merge mode and the customize chain
returns a result that is not an object, not false, and not undefined, a
warning keyed on the message is logged at most once per distinct message,
and the entry actually stored is the normalized key mapped to the resolved
public path; exactly that one entry is written (every other key of the store
reads unchanged). The warn-once helper lives in the missing helpers module
and is modelled from the spec. -/
theorem C3_customize_misuse (ctx : SetCtx) (st : MState) (key : String)
    (value entry : JValue)
    (hmerge : st.isMerging = false)
    (hno : isObject entry = false) (hnf : entry ≠ JValue.bool false)
    (hnu : entry ≠ JValue.undefined) (hw : WarnWF st) :
    (setModel ctx st key value entry).assets
        = objSet st.assets (fixKey key)
            (getPublicPath ctx.publicPath ctx.compilerPublicPath value)
    ∧ (∀ k2, k2 ≠ fixKey key →
        jGet (setModel ctx st key value entry).assets k2 = jGet st.assets k2)
    ∧ WarnWF (setModel ctx st key value entry)
    ∧ (∀ m, (setModel ctx st key value entry).warnLog.count m ≤ 1) := by
  have hne : setModel ctx st key value entry
      = { warnOnce ("Unexpected customize() return type: " ++ varType entry) st with
          assets := objSet
            (warnOnce ("Unexpected customize() return type: " ++ varType entry) st).assets
            (fixKey key)
            (getPublicPath ctx.publicPath ctx.compilerPublicPath value) } := by
    cases entry with
    | obj eo => simp [isObject] at hno
    | undefined => exact absurd rfl hnu
    | bool b =>
        cases b with
        | false => exact absurd rfl hnf
        | true => simp [setModel, hmerge]
    | str s => simp [setModel, hmerge]
    | num n => simp [setModel, hmerge]
    | null => simp [setModel, hmerge]
    | arr vs => simp [setModel, hmerge]
  rw [hne]
  have hwf2 := warnOnce_WF
    ("Unexpected customize() return type: " ++ varType entry) st hw
  refine ⟨by rw [warnOnce_assets], ?_, hwf2, ?_⟩
  · intro k2 h2
    rw [show ({ warnOnce ("Unexpected customize() return type: " ++ varType entry) st with
        assets := objSet
          (warnOnce ("Unexpected customize() return type: " ++ varType entry) st).assets
          (fixKey key)
          (getPublicPath ctx.publicPath ctx.compilerPublicPath value) } : MState).assets
      = objSet
          (warnOnce ("Unexpected customize() return type: " ++ varType entry) st).assets
          (fixKey key)
          (getPublicPath ctx.publicPath ctx.compilerPublicPath value) from rfl,
      jGet_objSet_ne _ _ _ _ h2, warnOnce_assets]
  · intro m
    exact List.nodup_iff_count_le_one.1 hwf2.1 m

/-- Claim C3 (witness): a string returned from customize triggers the
fallback store of the normalized key and resolved public path, with the
warn-once invariant maintained. -/
theorem C3_customize_misuse_witness :
    (⟨[], false, [], []⟩ : MState).isMerging = false
    ∧ isObject (JValue.str "oops") = false
    ∧ (setModel ⟨MergeOpt.off, false, "integrity", PPOpt.null, none, none⟩
        ⟨[], false, [], []⟩ "dir\\app.js" (JValue.str "app.1.js")
        (JValue.str "oops")).assets
      = objSet ([] : JObj) (fixKey "dir\\app.js")
          (getPublicPath PPOpt.null none (JValue.str "app.1.js")) :=
  ⟨rfl, rfl,
    (C3_customize_misuse ⟨MergeOpt.off, false, "integrity", PPOpt.null, none, none⟩
      ⟨[], false, [], []⟩ "dir\\app.js" (JValue.str "app.1.js") (JValue.str "oops")
      rfl rfl (by simp) (by simp) ⟨List.nodup_nil, by simp⟩).1⟩

/-- Claim C4: with integrity mode enabled, when the customize chain returns
an object whose value equals the resolved public path (or left it to the
destructuring default), the value stored under the possibly customized key
is the composite `src`/`integrity` object, whose digest is read from the
current asset metadata under the configured property name — the empty
string when there is no current asset or no digest recorded. -/
theorem C4_integrity_wrap (ctx : SetCtx) (st : MState) (key : String)
    (value : JValue) (eo : JObj) (s : String)
    (hmerge : st.isMerging = false)
    (hint : ctx.integrity = true)
    (hpp : getPublicPath ctx.publicPath ctx.compilerPublicPath value = JValue.str s)
    (hval : entryValueOf eo (JValue.str s) = JValue.str s) :
    (setModel ctx st key value (JValue.obj eo)).assets
      = objSet st.assets (entryKeyStr eo (fixKey key))
          (JValue.obj [("src", JValue.str s),
            ("integrity", integrityDigest ctx.currentAssetInfo ctx.integrityPropertyName)])
    ∧ (ctx.currentAssetInfo = none →
        integrityDigest ctx.currentAssetInfo ctx.integrityPropertyName = JValue.str "")
    ∧ (∀ info, ctx.currentAssetInfo = some info →
        stringHasDot ctx.integrityPropertyName = false →
        jGet info ctx.integrityPropertyName = none →
        integrityDigest ctx.currentAssetInfo ctx.integrityPropertyName
          = JValue.str "") := by
  refine ⟨?_, ?_, ?_⟩
  · have hguard : (entryValueDefaulted eo
        || jsStrictEqPrim (entryValueOf eo (JValue.str s)) (JValue.str s)) = true := by
      cases hv : jGet eo "value" with
      | none => simp [entryValueDefaulted, hv]
      | some v =>
          cases v with
          | undefined => simp [entryValueDefaulted, hv]
          | str s2 =>
              rw [entryValueOf, hv] at hval
              simp at hval
              simp [hval, jsStrictEqPrim, entryValueOf, hv]
          | num n => rw [entryValueOf, hv] at hval; simp at hval
          | bool b => rw [entryValueOf, hv] at hval; simp at hval
          | null => rw [entryValueOf, hv] at hval; simp at hval
          | arr vs => rw [entryValueOf, hv] at hval; simp at hval
          | obj es2 => rw [entryValueOf, hv] at hval; simp at hval
    simp [setModel, hmerge, hpp, hint, hguard, hval, jsStrictEqPrim]
  · intro h
    rw [h]
    rfl
  · intro info hinfo hdot hget
    rw [hinfo, integrityDigest, splitOnDot_no_dot _ hdot]
    simp [pathGetD, hget]

/-- Claim C4 (witness): the spec scenario — seed `foo.js : foo.abc123.js`
with integrity enabled and a customize stage returning the entry unchanged
stores the composite src/integrity object. -/
theorem C4_integrity_wrap_witness :
    getPublicPath PPOpt.null none (JValue.str "foo.abc123.js")
        = JValue.str "foo.abc123.js"
    ∧ entryValueOf [("key", JValue.str "foo.js"), ("value", JValue.str "foo.abc123.js")]
        (JValue.str "foo.abc123.js") = JValue.str "foo.abc123.js"
    ∧ (setModel ⟨MergeOpt.off, true, "integrity", PPOpt.null, none,
          some [("integrity", JValue.str "sha256-deadbeef")]⟩
        ⟨[], false, [], []⟩ "foo.js" (JValue.str "foo.abc123.js")
        (JValue.obj [("key", JValue.str "foo.js"),
          ("value", JValue.str "foo.abc123.js")])).assets
      = objSet ([] : JObj)
          (entryKeyStr [("key", JValue.str "foo.js"),
            ("value", JValue.str "foo.abc123.js")] (fixKey "foo.js"))
          (JValue.obj [("src", JValue.str "foo.abc123.js"),
            ("integrity", integrityDigest
              (some [("integrity", JValue.str "sha256-deadbeef")]) "integrity")]) :=
  ⟨rfl, rfl,
    (C4_integrity_wrap ⟨MergeOpt.off, true, "integrity", PPOpt.null, none,
        some [("integrity", JValue.str "sha256-deadbeef")]⟩
      ⟨[], false, [], []⟩ "foo.js" (JValue.str "foo.abc123.js")
      [("key", JValue.str "foo.js"), ("value", JValue.str "foo.abc123.js")]
      "foo.abc123.js" rfl rfl rfl rfl).1⟩

theorem startsWithDoubleSlash_false (fn : String) (h : startsWithSlash fn = false) :
    startsWithDoubleSlash fn = false := by
  rw [startsWithSlash] at h
  rw [startsWithDoubleSlash]
  cases hd : fn.data with
  | nil => rfl
  | cons c rest =>
      rw [hd] at h
      cases rest with
      | nil => rfl
      | cons c2 r2 =>
          simp at h
          simp [h]

theorem originOf_of_no_scheme (s : String) (h : hasScheme s = false) :
    originOf s = "" := by
  rw [hasScheme] at h
  rw [originOf]
  cases hb : breakOnSchemeSep s.data with
  | none => rfl
  | some p => rw [hb] at h; simp at h

theorem pathOf_of_no_scheme (s : String) (h : hasScheme s = false) : pathOf s = s := by
  rw [pathOf, originOf_of_no_scheme s h]
  rfl

theorem upToLastSlash_append_slash (p0 : String) :
    upToLastSlash (p0 ++ "/") = p0 ++ "/" := by
  have hdata : (p0 ++ "/").data = p0.data ++ ['/'] := by
    rw [String.data_append]
  have hlist : ((p0 ++ "/").data.reverse.dropWhile (fun c => c ≠ '/')).reverse
      = (p0 ++ "/").data := by
    rw [hdata, List.reverse_append]
    rw [show ((['/'] : List Char).reverse ++ p0.data.reverse)
        = '/' :: p0.data.reverse from rfl]
    rw [List.dropWhile_cons]
    simp
  rw [upToLastSlash, hlist]

/-- Claim C6: `getPublicPath` behaves by cases — a non-string filename is
returned unchanged; a function option is called and its result returned
verbatim with no further processing; a string option is joined with the
filename under URL-path-joining semantics (a slash-terminated scheme-less
prefix concatenates without a double slash, and any query or fragment inside
the filename passes through verbatim); boolean true resolves against the
compiler output publicPath, defaulting to the empty string when unavailable
(in which case the filename comes back unchanged); otherwise the filename is
returned unchanged. -/
theorem C6_getPublicPath_cases :
    (∀ (opt : PPOpt) (cpp : Option String) (v : JValue),
        (∀ s, v ≠ JValue.str s) → getPublicPath opt cpp v = v)
    ∧ (∀ (f : String → JValue) (cpp : Option String) (fn : String),
        getPublicPath (PPOpt.fn f) cpp (JValue.str fn) = f fn)
    ∧ (∀ (p : String) (cpp : Option String) (fn : String),
        getPublicPath (PPOpt.str p) cpp (JValue.str fn)
          = JValue.str (urlResolve p fn))
    ∧ (∀ (p0 fn : String), hasScheme (p0 ++ "/") = false → hasScheme fn = false →
        startsWithSlash fn = false → fn ≠ "" →
        urlResolve (p0 ++ "/") fn = (p0 ++ "/") ++ fn)
    ∧ (∀ (cpp : Option String) (fn : String),
        getPublicPath PPOpt.isTrue cpp (JValue.str fn)
          = JValue.str (urlResolve (cpp.getD "") fn))
    ∧ (∀ (fn : String), urlResolve "" fn = fn)
    ∧ (∀ (cpp : Option String) (fn : String),
        getPublicPath PPOpt.null cpp (JValue.str fn) = JValue.str fn) := by
  refine ⟨?_, ?_, ?_, ?_, ?_, ?_, ?_⟩
  · intro opt cpp v hv
    cases v with
    | str s => exact absurd rfl (hv s)
    | num n => rfl
    | bool b => rfl
    | null => rfl
    | undefined => rfl
    | arr vs => rfl
    | obj es => rfl
  · intro f cpp fn; rfl
  · intro p cpp fn; rfl
  · intro p0 fn h1 h2 h3 h4
    have hds : startsWithDoubleSlash fn = false := startsWithDoubleSlash_false fn h3
    rw [urlResolve, if_neg (by simp [hds]), if_neg (by simp [h2]),
      if_neg (by simp [h3]), if_neg h4]
    rw [pathOf_of_no_scheme _ h1, upToLastSlash_append_slash p0,
      originOf_of_no_scheme _ h1]
    simp [h1]
  · intro cpp fn; rfl
  · intro fn
    rw [urlResolve]
    by_cases hds : startsWithDoubleSlash fn = true
    · rw [if_pos hds]
      have : schemeOf "" = "" := rfl
      rw [this]
      have hsl : startsWithSlash fn = true := by
        rw [startsWithDoubleSlash] at hds
        rw [startsWithSlash]
        cases hd : fn.data with
        | nil => rw [hd] at hds; simp at hds
        | cons c rest =>
            rw [hd] at hds
            cases rest with
            | nil => simp at hds
            | cons c2 r2 => simp at hds ⊢; exact hds.1
      simp
    · rw [if_neg hds]
      by_cases hsch : hasScheme fn = true
      · rw [if_pos hsch]
      · rw [if_neg hsch]
        by_cases hsl : startsWithSlash fn = true
        · rw [if_pos hsl]
          rfl
        · rw [if_neg hsl]
          by_cases hemp : fn = ""
          · rw [if_pos hemp, hemp]
          · rw [if_neg hemp]
            rfl
  · intro cpp fn; rfl

/-- Claim C6 (witness): each branch evaluated at a concrete input — a
string prefix URL-joins without a double slash and keeps the query string,
the compiler default resolves to the bare filename, and a non-string value
passes through unchanged. -/
theorem C6_getPublicPath_witness :
    getPublicPath (PPOpt.str "cdn/assets/") none (JValue.str "img/a.png?v=1")
        = JValue.str (urlResolve "cdn/assets/" "img/a.png?v=1")
    ∧ urlResolve ("cdn/assets" ++ "/") "img/a.png?v=1"
        = ("cdn/assets" ++ "/") ++ "img/a.png?v=1"
    ∧ getPublicPath PPOpt.isTrue none (JValue.str "main.js")
        = JValue.str (urlResolve "" "main.js")
    ∧ urlResolve "" "main.js" = "main.js"
    ∧ getPublicPath (PPOpt.str "x/") none (JValue.num 5) = JValue.num 5 :=
  ⟨C6_getPublicPath_cases.2.2.1 "cdn/assets/" none "img/a.png?v=1",
    C6_getPublicPath_cases.2.2.2.1 "cdn/assets" "img/a.png?v=1" rfl rfl rfl
      (by simp),
    C6_getPublicPath_cases.2.2.2.2.1 none "main.js",
    C6_getPublicPath_cases.2.2.2.2.2.1 "main.js",
    C6_getPublicPath_cases.1 (PPOpt.str "x/") none (JValue.num 5)
      (fun s h => JValue.noConfusion h)⟩

/-- Claim C1: during a merge (merge option enabled, modelled by
`maybeMergeModel true` running `mergeLoop`), each parsed on-disk entry
`(k, old)` is treated as follows — when the store does not yet have the key,
the on-disk value is inserted verbatim under the raw key; when it does and
both the on-disk value and the current in-memory value are plain objects,
the stored result is their deepmerge, in which the in-memory (source) side
wins on non-mergeable (scalar) conflicts and an array-valued sub-field of
the in-memory side replaces the on-disk one wholesale, never concatenated. -/
theorem C1_merge_deep_merge_semantics :
    (∀ (st : MState) (data : JObj),
        (maybeMergeModel true (some data) st).assets = mergeLoop st.assets data)
    ∧ (∀ (s : JObj) (k : String) (old : JValue),
        hasKeyDual s k = false → mergeStep s k old = objSet s k old)
    ∧ (∀ (s : JObj) (k : String) (old : JValue),
        hasKeyDual s k = true → isObject old = true →
        isObject (getVal s k) = true →
        jGet (mergeStep s k old) k = some (deepmergeV old (getVal s k)))
    ∧ (∀ (tes so : JObj) (j : String) (sv : JValue), nodupKeys so = true →
        jGet so j = some sv → isMergeable sv = false →
        jGet (entriesOf (deepmergeV (JValue.obj tes) (JValue.obj so))) j = some sv)
    ∧ (∀ (tes so : JObj) (j : String) (xs : List JValue), nodupKeys so = true →
        jGet so j = some (JValue.arr xs) →
        jGet (entriesOf (deepmergeV (JValue.obj tes) (JValue.obj so))) j
          = some (JValue.arr xs)) := by
  refine ⟨?_, ?_, ?_, ?_, ?_⟩
  · intro st data; rfl
  · intro s k old h
    simp [mergeStep, h]
  · intro s k old h1 h2 h3
    simp [mergeStep, h1, h2, h3, jGet_objSet_self]
  · intro tes so j sv hnd hg hm
    rw [dm_obj_obj]
    rw [show entriesOf (JValue.obj (setAll tes
      (so.map (fun kv : String × JValue => (kv.1, resolveMerge (JValue.obj tes) kv.1 kv.2)))))
      = setAll tes (so.map (fun kv : String × JValue =>
          (kv.1, resolveMerge (JValue.obj tes) kv.1 kv.2))) from rfl]
    rw [jGet_setAll_mem _ tes j (resolveMerge (JValue.obj tes) j sv)
      (by rw [nodupKeys_map_resolve]; exact hnd)
      (by rw [jGet_map_resolve, hg]; rfl)]
    rw [show resolveMerge (JValue.obj tes) j sv = sv by simp [resolveMerge, hm]]
  · intro tes so j xs hnd hg
    rw [dm_obj_obj]
    rw [show entriesOf (JValue.obj (setAll tes
      (so.map (fun kv : String × JValue => (kv.1, resolveMerge (JValue.obj tes) kv.1 kv.2)))))
      = setAll tes (so.map (fun kv : String × JValue =>
          (kv.1, resolveMerge (JValue.obj tes) kv.1 kv.2))) from rfl]
    rw [jGet_setAll_mem _ tes j (resolveMerge (JValue.obj tes) j (JValue.arr xs))
      (by rw [nodupKeys_map_resolve]; exact hnd)
      (by rw [jGet_map_resolve, hg]; rfl)]
    rw [show resolveMerge (JValue.obj tes) j (JValue.arr xs) = JValue.arr xs by
      rw [resolveMerge]
      cases hk : valueHasKey (JValue.obj tes) j with
      | false => simp [hk]
      | true => simp [hk, isMergeable, dm_arr_right]]

/-- Claim C1 (witness): the spec scenario — on-disk `a.js : {size: 10}`
merged into a store holding `a.js : {hash: "x"}` stores the deep merge, and
on-disk sub-fields survive while in-memory scalar conflicts and arrays win. -/
theorem C1_merge_deep_merge_witness :
    hasKeyDual [("a.js", JValue.obj [("hash", JValue.str "x")])] "a.js" = true
    ∧ isObject (JValue.obj [("size", JValue.num 10)]) = true
    ∧ isObject (getVal [("a.js", JValue.obj [("hash", JValue.str "x")])] "a.js") = true
    ∧ jGet (mergeStep [("a.js", JValue.obj [("hash", JValue.str "x")])] "a.js"
          (JValue.obj [("size", JValue.num 10)])) "a.js"
        = some (deepmergeV (JValue.obj [("size", JValue.num 10)])
            (getVal [("a.js", JValue.obj [("hash", JValue.str "x")])] "a.js"))
    ∧ jGet (entriesOf (deepmergeV
          (JValue.obj [("v", JValue.num 1), ("keep", JValue.str "old")])
          (JValue.obj [("v", JValue.num 2), ("files", JValue.arr [JValue.str "n.js"])])))
        "v" = some (JValue.num 2)
    ∧ jGet (entriesOf (deepmergeV
          (JValue.obj [("files", JValue.arr [JValue.str "o.js", JValue.str "o2.js"])])
          (JValue.obj [("files", JValue.arr [JValue.str "n.js"])])))
        "files" = some (JValue.arr [JValue.str "n.js"]) :=
  ⟨rfl, rfl, rfl,
    C1_merge_deep_merge_semantics.2.2.1
      [("a.js", JValue.obj [("hash", JValue.str "x")])] "a.js"
      (JValue.obj [("size", JValue.num 10)]) rfl rfl rfl,
    C1_merge_deep_merge_semantics.2.2.2.1
      [("v", JValue.num 1), ("keep", JValue.str "old")]
      [("v", JValue.num 2), ("files", JValue.arr [JValue.str "n.js"])]
      "v" (JValue.num 2) rfl rfl rfl,
    C1_merge_deep_merge_semantics.2.2.2.2
      [("files", JValue.arr [JValue.str "o.js", JValue.str "o2.js"])]
      [("files", JValue.arr [JValue.str "n.js"])]
      "files" [JValue.str "n.js"] rfl rfl⟩

/-- Claim C8 (counterexample): the merge loop is not idempotent on every
store and snapshot. With store `{"a\b": ""}` and on-disk data
`{"a\b": {p: 1}, "a/b": {q: 2}}`, the first run inserts only `a/b` (the
falsy stored value makes the current value read as undefined), while the
second run finds the object just inserted under the slash-normalized alias
and writes a merged object under `a\b`, changing the store again. -/
theorem C8_merge_idempotent_counterexample :
    mergeLoop (mergeLoop [("a\\b", JValue.str "")]
        [("a\\b", JValue.obj [("p", JValue.num 1)]),
          ("a/b", JValue.obj [("q", JValue.num 2)])])
        [("a\\b", JValue.obj [("p", JValue.num 1)]),
          ("a/b", JValue.obj [("q", JValue.num 2)])]
      ≠ mergeLoop [("a\\b", JValue.str "")]
        [("a\\b", JValue.obj [("p", JValue.num 1)]),
          ("a/b", JValue.obj [("q", JValue.num 2)])] := by
  intro h
  have h1 : some (JValue.obj [("p", JValue.num 1), ("q", JValue.num 2)])
      = some (JValue.str "") := by
    calc some (JValue.obj [("p", JValue.num 1), ("q", JValue.num 2)])
        = jGet (mergeLoop (mergeLoop [("a\\b", JValue.str "")]
            [("a\\b", JValue.obj [("p", JValue.num 1)]),
              ("a/b", JValue.obj [("q", JValue.num 2)])])
            [("a\\b", JValue.obj [("p", JValue.num 1)]),
              ("a/b", JValue.obj [("q", JValue.num 2)])]) "a\\b" := rfl
      _ = jGet (mergeLoop [("a\\b", JValue.str "")]
            [("a\\b", JValue.obj [("p", JValue.num 1)]),
              ("a/b", JValue.obj [("q", JValue.num 2)])]) "a\\b" := by rw [h]
      _ = some (JValue.str "") := rfl
  simp at h1

/-- Claim C8 (amended): the merge loop is idempotent for every well-formed
store and every parsed on-disk snapshot whose keys contain no backslash (so
that no two distinct keys alias each other through slash normalization):
running it twice against the same data, the second run starting from the
first run's result, leaves the store exactly as after one run. -/
theorem C8_merge_idempotent_amended (s data : JObj) (hs : WFO s = true)
    (hd : dataOK data = true) :
    mergeLoop (mergeLoop s data) data = mergeLoop s data :=
  mergeLoop_id_of_stable data _ (mergeLoop_stable_all data s hs hd)

/-- Claim C8 (witness for the amended theorem): a concrete two-entry
snapshot merged twice into a one-entry store equals the single merge. -/
theorem C8_merge_idempotent_witness :
    WFO [("a.js", JValue.obj [("hash", JValue.str "x")])] = true
    ∧ dataOK [("a.js", JValue.obj [("size", JValue.num 10)]),
        ("b.js", JValue.str "b.1.js")] = true
    ∧ mergeLoop (mergeLoop [("a.js", JValue.obj [("hash", JValue.str "x")])]
          [("a.js", JValue.obj [("size", JValue.num 10)]),
            ("b.js", JValue.str "b.1.js")])
          [("a.js", JValue.obj [("size", JValue.num 10)]),
            ("b.js", JValue.str "b.1.js")]
        = mergeLoop [("a.js", JValue.obj [("hash", JValue.str "x")])]
          [("a.js", JValue.obj [("size", JValue.num 10)]),
            ("b.js", JValue.str "b.1.js")] :=
  ⟨rfl, rfl,
    C8_merge_idempotent_amended [("a.js", JValue.obj [("hash", JValue.str "x")])]
      [("a.js", JValue.obj [("size", JValue.num 10)]),
        ("b.js", JValue.str "b.1.js")] rfl rfl⟩
